import Mathlib

/-!
Verification of the in-memory limit order book engine in `ob.cpp`.

The C++ engine keeps three coupled structures:
* `bids_ : std::map<Price, std::list<OrderPointer>, std::greater>` — price levels,
  best (highest) bid first;
* `asks_ : std::map<Price, std::list<OrderPointer>, std::less>` — price levels,
  best (lowest) ask first;
* `orders_ : std::unordered_map<OrderId, OrderEntry>` — the order index.

We embed each side as an association list `List (Price × List Order)` kept in the
map's iteration order (strictly descending prices for bids, strictly ascending
for asks), and the index as a `List OrderEntry`.  The C++ `OrderEntry` stores a
`shared_ptr` to the order (aliasing the queue node) plus a list iterator; the
engine only ever reads the immutable fields (id, side, price, order type)
through that pointer, so the embedded entry records exactly those fields.
`Quantity` is `uint32_t`; all quantity arithmetic performed by the engine is
guarded subtraction and `min`, which never wrap, except for the level-total
accumulator in `GetOrderInfos`, which is embedded with its `% 2^32` wraparound.
`Price` is `int32_t` and is only compared, never computed with, so it is
embedded as `Int`.
-/

inductive OrderType where
  | GoodTillCancel
  | FillAndKill
deriving DecidableEq, Repr

inductive Side where
  | Buy
  | Sell
deriving DecidableEq, Repr

abbrev Price := Int
abbrev Quantity := Nat
abbrev OrderId := Nat

/-- The `uint32_t` modulus used by the level-quantity accumulator. -/
def qmod : Nat := 4294967296

structure Order where
  orderType : OrderType
  orderId : OrderId
  side : Side
  price : Price
  initialQuantity : Quantity
  remainingQuantity : Quantity
deriving DecidableEq, Repr

def Order.GetFilledQuantity (o : Order) : Quantity :=
  o.initialQuantity - o.remainingQuantity

def Order.IsFilled (o : Order) : Bool :=
  o.remainingQuantity = 0

/-- `Order::Fill`: throws (here: `none`) when `quantity` exceeds the remaining
quantity, otherwise subtracts.  The C++ subtraction cannot wrap because of the
guard. -/
def Order.Fill (o : Order) (quantity : Quantity) : Option Order :=
  if quantity > o.remainingQuantity then none
  else some { o with remainingQuantity := o.remainingQuantity - quantity }

structure OrderModify where
  orderId : OrderId
  side : Side
  price : Price
  quantity : Quantity
deriving DecidableEq, Repr

/-- `OrderModify::ToOrderPointer`: builds a fresh, fully unfilled order. -/
def OrderModify.ToOrderPointer (m : OrderModify) (type : OrderType) : Order :=
  ⟨type, m.orderId, m.side, m.price, m.quantity, m.quantity⟩

structure TradeInfo where
  orderId : OrderId
  price : Price
  quantity : Quantity
deriving DecidableEq, Repr

structure Trade where
  bidTrade : TradeInfo
  askTrade : TradeInfo
deriving DecidableEq, Repr

structure LevelInfo where
  price : Price
  quantity : Quantity
deriving DecidableEq, Repr

structure OrderbookLevelInfos where
  bids : List LevelInfo
  asks : List LevelInfo
deriving DecidableEq, Repr

/-- One entry of the order index `orders_`.  The C++ entry is the id key plus a
shared pointer to the order (and a queue iterator); only the order's immutable
fields are ever read through it, and those are what we record. -/
structure OrderEntry where
  orderId : OrderId
  side : Side
  price : Price
  orderType : OrderType
deriving DecidableEq, Repr

abbrev BookSide := List (Price × List Order)

structure Orderbook where
  bids : BookSide
  asks : BookSide
  orders : List OrderEntry
deriving DecidableEq, Repr

def emptyBook : Orderbook := ⟨[], [], []⟩

/-- Lookup in the index (`orders_.contains` / `orders_.at`). -/
def lookupEntry (oid : OrderId) : List OrderEntry → Option OrderEntry
  | [] => none
  | e :: es => if e.orderId = oid then some e else lookupEntry oid es

/-- `orders_.erase(oid)`: remove the (unique) entry with this id. -/
def eraseEntry (oid : OrderId) : List OrderEntry → List OrderEntry
  | [] => []
  | e :: es => if e.orderId = oid then es else e :: eraseEntry oid es

/-- The index erasures performed during matching, in removal order. -/
def eraseEntries (ids : List OrderId) (l : List OrderEntry) : List OrderEntry :=
  ids.foldl (fun acc i => eraseEntry i acc) l

/-- Remove the (unique) order with this id from one queue
(`orders.erase(iterator)`; the iterator designates exactly the node holding the
order with this id). -/
def eraseOrder (oid : OrderId) : List Order → List Order
  | [] => []
  | o :: os => if o.orderId = oid then os else o :: eraseOrder oid os

/-- Insertion into one side's price map followed by `push_back`:
`auto& orders = side_[price]; orders.push_back(order);`.
`before p q = true` means price `p` is iterated before price `q` on this side. -/
def insertIntoSide (before : Price → Price → Bool) (o : Order) : BookSide → BookSide
  | [] => [(o.price, [o])]
  | (p, os) :: rest =>
    if o.price = p then (p, os ++ [o]) :: rest
    else if before o.price p then (o.price, [o]) :: (p, os) :: rest
    else (p, os) :: insertIntoSide before o rest

/-- `std::greater<Price>`: bids iterate highest price first. -/
def bidBefore (p q : Price) : Bool := q < p

/-- `std::less<Price>`: asks iterate lowest price first. -/
def askBefore (p q : Price) : Bool := p < q

/-- `CancelOrder`'s queue surgery: at the level with this price, erase the order
with this id, and drop the level if its queue becomes empty. -/
def removeFromLevel (price : Price) (oid : OrderId) : BookSide → BookSide
  | [] => []
  | (p, os) :: rest =>
    if p = price then
      if eraseOrder oid os = [] then rest else (p, eraseOrder oid os) :: rest
    else (p, os) :: removeFromLevel price oid rest

/-- Result of the inner matching loop over the two best level queues. -/
structure LevelMatchResult where
  bidQueue : List Order
  askQueue : List Order
  trades : List Trade
  removed : List OrderId
deriving DecidableEq, Repr

/-- The inner `while (!bids.empty() && !asks.empty())` loop of `MatchOrders`:
trade `min` of the two head remainders, fill both heads, pop each head that is
now fully filled (recording its id for index erasure).  When the traded
quantity is the minimum, at least one head is always fully filled; the final
branch is the case where the bid head is not, hence the ask head is. -/
def tradeOf (bid ask : Order) : Trade :=
  ⟨⟨bid.orderId, bid.price, min bid.remainingQuantity ask.remainingQuantity⟩,
   ⟨ask.orderId, ask.price, min bid.remainingQuantity ask.remainingQuantity⟩⟩

def fillBy (o : Order) (quantity : Quantity) : Order :=
  { o with remainingQuantity := o.remainingQuantity - quantity }

def matchLevel : List Order → List Order → LevelMatchResult
  | [], aq => ⟨[], aq, [], []⟩
  | bid :: bq, [] => ⟨bid :: bq, [], [], []⟩
  | bid :: bq, ask :: aq =>
    if bid.remainingQuantity - min bid.remainingQuantity ask.remainingQuantity = 0 then
      if ask.remainingQuantity - min bid.remainingQuantity ask.remainingQuantity = 0 then
        let r := matchLevel bq aq
        ⟨r.bidQueue, r.askQueue, tradeOf bid ask :: r.trades,
         bid.orderId :: ask.orderId :: r.removed⟩
      else
        let r := matchLevel bq (fillBy ask (min bid.remainingQuantity ask.remainingQuantity) :: aq)
        ⟨r.bidQueue, r.askQueue, tradeOf bid ask :: r.trades, bid.orderId :: r.removed⟩
    else
      let r := matchLevel (fillBy bid (min bid.remainingQuantity ask.remainingQuantity) :: bq) aq
      ⟨r.bidQueue, r.askQueue, tradeOf bid ask :: r.trades, ask.orderId :: r.removed⟩
termination_by bq aq => bq.length + aq.length
decreasing_by
  · simp +arith
  · simp +arith
  · simp +arith

/-- Result of the full matching loop. -/
structure BookMatchResult where
  bids : BookSide
  asks : BookSide
  trades : List Trade
  removed : List OrderId
deriving DecidableEq, Repr

/-- Re-install a level after the inner loop: `if (bids.empty()) bids_.erase(bidIt);`. -/
def putLevel (p : Price) (q : List Order) (rest : BookSide) : BookSide :=
  if q.isEmpty then rest else (p, q) :: rest

theorem matchLevel_queue_empty (bq aq : List Order) :
    (matchLevel bq aq).bidQueue = [] ∨ (matchLevel bq aq).askQueue = [] := by
  induction bq, aq using matchLevel.induct <;> simp_all [matchLevel]

/-- The outer `while (!bids_.empty() && !asks_.empty())` loop of `MatchOrders`:
stop when a side is empty or the best bid price is below the best ask price;
otherwise run the inner loop on the two best level queues, erase a level whose
queue emptied, and continue. -/
def matchBooks : BookSide → BookSide → BookMatchResult
  | [], aks => ⟨[], aks, [], []⟩
  | bl :: bks, [] => ⟨bl :: bks, [], [], []⟩
  | (bp, bq) :: bks, (ap, aq) :: aks =>
    if bp < ap then ⟨(bp, bq) :: bks, (ap, aq) :: aks, [], []⟩
    else
      let r := matchLevel bq aq
      let r2 := matchBooks (putLevel bp r.bidQueue bks) (putLevel ap r.askQueue aks)
      ⟨r2.bids, r2.asks, r.trades ++ r2.trades, r.removed ++ r2.removed⟩
termination_by bks aks => bks.length + aks.length
decreasing_by
  have hb : (putLevel bp (matchLevel bq aq).bidQueue bks).length ≤ bks.length + 1 := by
    simp only [putLevel]; split <;> simp
  have ha : (putLevel ap (matchLevel bq aq).askQueue aks).length ≤ aks.length + 1 := by
    simp only [putLevel]; split <;> simp
  rcases matchLevel_queue_empty bq aq with h | h
  · have hb2 : (putLevel bp (matchLevel bq aq).bidQueue bks).length = bks.length := by
      simp [putLevel, h]
    simp only [List.length_cons]
    omega
  · have ha2 : (putLevel ap (matchLevel bq aq).askQueue aks).length = aks.length := by
      simp [putLevel, h]
    simp only [List.length_cons]
    omega

def Orderbook.MatchOrders (b : Orderbook) : Orderbook × List Trade :=
  let r := matchBooks b.bids b.asks
  ({ bids := r.bids, asks := r.asks, orders := eraseEntries r.removed b.orders }, r.trades)

/-- `Orderbook::CanMatch`: compare against the best opposing level. -/
def Orderbook.CanMatch (b : Orderbook) (side : Side) (price : Price) : Bool :=
  match side with
  | Side.Buy =>
    match b.asks with
    | [] => false
    | (bestAsk, _) :: _ => bestAsk ≤ price
  | Side.Sell =>
    match b.bids with
    | [] => false
    | (bestBid, _) :: _ => price ≤ bestBid

/-- `Orderbook::AddOrder`: reject duplicate ids and unmatchable FillAndKill
orders, otherwise insert at the tail of the order's price level, index it, and
run the matching loop. -/
def Orderbook.AddOrder (b : Orderbook) (o : Order) : Orderbook × List Trade :=
  if (lookupEntry o.orderId b.orders).isSome then (b, [])
  else if o.orderType = OrderType.FillAndKill ∧ b.CanMatch o.side o.price = false then (b, [])
  else
    let b1 :=
      match o.side with
      | Side.Buy => { b with bids := insertIntoSide bidBefore o b.bids }
      | Side.Sell => { b with asks := insertIntoSide askBefore o b.asks }
    let b2 := { b1 with orders := b1.orders ++ [OrderEntry.mk o.orderId o.side o.price o.orderType] }
    b2.MatchOrders

/-- `Orderbook::CancelOrder`: no-op for unknown ids, otherwise remove from the
index and from the queue designated by the indexed order's side and price. -/
def Orderbook.CancelOrder (b : Orderbook) (oid : OrderId) : Orderbook :=
  match lookupEntry oid b.orders with
  | none => b
  | some e =>
    let b1 := { b with orders := eraseEntry oid b.orders }
    match e.side with
    | Side.Sell => { b1 with asks := removeFromLevel e.price oid b1.asks }
    | Side.Buy => { b1 with bids := removeFromLevel e.price oid b1.bids }

/-- `Orderbook::MatchOrder` (the modify operation): cancel then resubmit with
the preserved time-in-force classification. -/
def Orderbook.MatchOrder (b : Orderbook) (m : OrderModify) : Orderbook × List Trade :=
  match lookupEntry m.orderId b.orders with
  | none => (b, [])
  | some e =>
    let b1 := b.CancelOrder m.orderId
    b1.AddOrder (m.ToOrderPointer e.orderType)

def Orderbook.Size (b : Orderbook) : Nat := b.orders.length

/-- The `std::accumulate` over one level's queue: a `uint32_t` running sum of
remaining quantities, i.e. addition modulo `2^32` at each step. -/
def levelQuantity (os : List Order) : Quantity :=
  os.foldl (fun sum o => (sum + o.remainingQuantity) % qmod) 0

def CreateLevelInfo (price : Price) (os : List Order) : LevelInfo :=
  ⟨price, levelQuantity os⟩

/-- `Orderbook::GetOrderInfos`: one aggregated (price, quantity) pair per level,
in each side's iteration order. -/
def Orderbook.GetOrderInfos (b : Orderbook) : OrderbookLevelInfos :=
  ⟨b.bids.map (fun l => CreateLevelInfo l.1 l.2),
   b.asks.map (fun l => CreateLevelInfo l.1 l.2)⟩

/-- States reachable from the empty book by the public mutating operations. -/
inductive Reachable : Orderbook → Prop where
  | empty : Reachable emptyBook
  | add (b : Orderbook) (o : Order) : Reachable b → Reachable (b.AddOrder o).1
  | cancel (b : Orderbook) (oid : OrderId) : Reachable b → Reachable (b.CancelOrder oid)
  | modify (b : Orderbook) (m : OrderModify) : Reachable b → Reachable (b.MatchOrder m).1

/-! ### Projections and invariant vocabulary -/

def queueIds (os : List Order) : List OrderId := os.map Order.orderId

def sideOrders : BookSide → List Order
  | [] => []
  | l :: rest => l.2 ++ sideOrders rest

def sideIds (s : BookSide) : List OrderId := queueIds (sideOrders s)

/-- All orders resting in the book, bids first, in queue order. -/
def Orderbook.allOrders (b : Orderbook) : List Order :=
  sideOrders b.bids ++ sideOrders b.asks

/-- The ids of all orders resting in the book. -/
def Orderbook.bookIds (b : Orderbook) : List OrderId := queueIds b.allOrders

/-- The ids recorded in the index. -/
def Orderbook.idxIds (b : Orderbook) : List OrderId := b.orders.map OrderEntry.orderId

/-- Two orders that agree on every field except that the first may have a
smaller remaining quantity (the result of filling). -/
def SameCore (a b : Order) : Prop :=
  a.orderType = b.orderType ∧ a.orderId = b.orderId ∧ a.side = b.side ∧
  a.price = b.price ∧ a.initialQuantity = b.initialQuantity ∧
  a.remainingQuantity ≤ b.remainingQuantity

/-- The two sides are not crossed at their best (first) levels. -/
def Uncrossed : BookSide → BookSide → Prop
  | (bp, _) :: _, (ap, _) :: _ => bp < ap
  | _, _ => True

/-- The data-structure invariant of the engine, maintained by every public
operation. -/
structure WF (b : Orderbook) : Prop where
  sortedBids : b.bids.Pairwise (fun x y => bidBefore x.1 y.1 = true)
  sortedAsks : b.asks.Pairwise (fun x y => askBefore x.1 y.1 = true)
  neBids : ∀ l ∈ b.bids, l.2 ≠ []
  neAsks : ∀ l ∈ b.asks, l.2 ≠ []
  cohBids : ∀ l ∈ b.bids, ∀ o ∈ l.2, o.side = Side.Buy ∧ o.price = l.1
  cohAsks : ∀ l ∈ b.asks, ∀ o ∈ l.2, o.side = Side.Sell ∧ o.price = l.1
  nodupIdx : b.idxIds.Nodup
  nodupBook : b.bookIds.Nodup
  idsMatch : ∀ i, i ∈ b.idxIds ↔ i ∈ b.bookIds
  entryMatch : ∀ e ∈ b.orders, ∃ o ∈ b.allOrders,
    o.orderId = e.orderId ∧ o.side = e.side ∧ o.price = e.price ∧ o.orderType = e.orderType
  uncrossed : Uncrossed b.bids b.asks

/-- The invariant after a raw insertion, before matching has restored the
no-cross property: every component of `WF` except `uncrossed`. -/
structure PreWF (b : Orderbook) : Prop where
  sortedBids : b.bids.Pairwise (fun x y => bidBefore x.1 y.1 = true)
  sortedAsks : b.asks.Pairwise (fun x y => askBefore x.1 y.1 = true)
  neBids : ∀ l ∈ b.bids, l.2 ≠ []
  neAsks : ∀ l ∈ b.asks, l.2 ≠ []
  cohBids : ∀ l ∈ b.bids, ∀ o ∈ l.2, o.side = Side.Buy ∧ o.price = l.1
  cohAsks : ∀ l ∈ b.asks, ∀ o ∈ l.2, o.side = Side.Sell ∧ o.price = l.1
  nodupIdx : b.idxIds.Nodup
  nodupBook : b.bookIds.Nodup
  idsMatch : ∀ i, i ∈ b.idxIds ↔ i ∈ b.bookIds
  entryMatch : ∀ e ∈ b.orders, ∃ o ∈ b.allOrders,
    o.orderId = e.orderId ∧ o.side = e.side ∧ o.price = e.price ∧ o.orderType = e.orderType

/-- Modelled from the spec's words for the cancel operation: remove the order
with the given id from whichever price-level queue holds it, drop the level if
its queue becomes empty.  Used to state that `CancelOrder` (which locates the
queue through the index) has exactly this effect. -/
def removeIdFromSide (oid : OrderId) : BookSide → BookSide
  | [] => []
  | (p, os) :: rest =>
    if oid ∈ queueIds os then
      if eraseOrder oid os = [] then rest else (p, eraseOrder oid os) :: rest
    else (p, os) :: removeIdFromSide oid rest

/-- Modelled from the spec's words: cancel removes exactly the order with the
given id from its queue (dropping an emptied level) and its entry from the
index, leaving everything else unchanged. -/
def cancelSpec (b : Orderbook) (oid : OrderId) : Orderbook :=
  ⟨removeIdFromSide oid b.bids, removeIdFromSide oid b.asks, eraseEntry oid b.orders⟩

/-- Modelled from the spec's words: the exact (unbounded) sum of the remaining
quantities of the orders at one level. -/
def specLevelQuantity (os : List Order) : Quantity :=
  (os.map Order.remainingQuantity).sum

/-- Modelled from the spec's words for one iteration of the matching
algorithm: while a cross exists, take the head order of each side's best
level, execute a trade for the minimum of the two remaining quantities, fill
both orders by that amount, pop each order that becomes fully filled from its
queue (recording its id for index removal, and removing its level when the
queue empties), record the trade with each side at its own order's price, and
continue matching. -/
def specMatchStep (bp : Price) (bid : Order) (bq : List Order) (bks : BookSide)
    (ap : Price) (ask : Order) (aq : List Order) (aks : BookSide) : BookMatchResult :=
  let q := min bid.remainingQuantity ask.remainingQuantity
  let newBids := if bid.remainingQuantity - q = 0 then putLevel bp bq bks
    else (bp, fillBy bid q :: bq) :: bks
  let newAsks := if ask.remainingQuantity - q = 0 then putLevel ap aq aks
    else (ap, fillBy ask q :: aq) :: aks
  let rest := matchBooks newBids newAsks
  ⟨rest.bids, rest.asks,
   Trade.mk ⟨bid.orderId, bid.price, q⟩ ⟨ask.orderId, ask.price, q⟩ :: rest.trades,
   (if bid.remainingQuantity - q = 0 then [bid.orderId] else []) ++
     ((if ask.remainingQuantity - q = 0 then [ask.orderId] else []) ++ rest.removed)⟩

/-! ### Concrete example states used by the counterexample and witnesses -/

def exGtcSell : Order := ⟨OrderType.GoodTillCancel, 1, Side.Sell, 100, 4, 4⟩

def exFakBuy : Order := ⟨OrderType.FillAndKill, 2, Side.Buy, 100, 10, 10⟩

/-- The book after `AddOrder(GTC, 1, Sell, 100, 4)` then
`AddOrder(FAK, 2, Buy, 100, 10)` from the empty book. -/
def exFakState : Orderbook := ((emptyBook.AddOrder exGtcSell).1.AddOrder exFakBuy).1

def exBigBuy1 : Order := ⟨OrderType.GoodTillCancel, 1, Side.Buy, 100, 4294967295, 4294967295⟩

def exBigBuy2 : Order := ⟨OrderType.GoodTillCancel, 2, Side.Buy, 100, 4294967295, 4294967295⟩

/-- The book holding two resting bids of `uint32`-maximal quantity at price 100. -/
def exBigState : Orderbook := ((emptyBook.AddOrder exBigBuy1).1.AddOrder exBigBuy2).1

def exGtcBuy : Order := ⟨OrderType.GoodTillCancel, 1, Side.Buy, 100, 10, 10⟩

/-- The book holding one resting bid `(GTC, 1, Buy, 100, 10)`. -/
def exOneBidState : Orderbook := (emptyBook.AddOrder exGtcBuy).1

/-! ### Lemmas about the index helpers -/

theorem lookupEntry_eq_none (oid : OrderId) (l : List OrderEntry) :
    lookupEntry oid l = none ↔ oid ∉ l.map OrderEntry.orderId := by
  induction l with
  | nil => simp [lookupEntry]
  | cons e es ih =>
    by_cases h : e.orderId = oid
    · simp [lookupEntry, h]
    · simp only [lookupEntry, if_neg h, List.map_cons, List.mem_cons, ih]
      constructor
      · rintro h2 (rfl | h3)
        · exact h rfl
        · exact h2 h3
      · intro h2 h3
        exact h2 (Or.inr h3)

theorem lookupEntry_isSome (oid : OrderId) (l : List OrderEntry) :
    (lookupEntry oid l).isSome = true ↔ oid ∈ l.map OrderEntry.orderId := by
  rcases h : lookupEntry oid l with _ | e
  · rw [lookupEntry_eq_none] at h
    simp [h]
  · have h2 : lookupEntry oid l ≠ none := by simp [h]
    rw [Ne, lookupEntry_eq_none, not_not] at h2
    simp [h2]

theorem lookupEntry_mem (oid : OrderId) (l : List OrderEntry) (e : OrderEntry)
    (h : lookupEntry oid l = some e) : e ∈ l ∧ e.orderId = oid := by
  induction l with
  | nil => simp [lookupEntry] at h
  | cons e2 es ih =>
    by_cases h2 : e2.orderId = oid
    · rw [lookupEntry, if_pos h2, Option.some_inj] at h
      subst h
      exact ⟨List.mem_cons_self _ _, h2⟩
    · rw [lookupEntry, if_neg h2] at h
      exact ⟨List.mem_cons_of_mem _ (ih h).1, (ih h).2⟩


theorem eraseEntry_sublist (oid : OrderId) (l : List OrderEntry) :
    List.Sublist (eraseEntry oid l) l := by
  induction l with
  | nil => simp [eraseEntry]
  | cons e es ih =>
    rw [eraseEntry]
    split
    · exact List.sublist_cons_self e es
    · exact List.Sublist.cons₂ e ih

theorem eraseEntry_of_not_mem (oid : OrderId) (l : List OrderEntry)
    (h : oid ∉ l.map OrderEntry.orderId) : eraseEntry oid l = l := by
  induction l with
  | nil => rfl
  | cons e es ih =>
    simp only [List.map_cons, List.mem_cons, not_or] at h
    rw [eraseEntry, if_neg (fun h2 => h.1 h2.symm), ih h.2]

theorem mem_eraseEntry_of_ne (oid : OrderId) (l : List OrderEntry) (e : OrderEntry)
    (he : e ∈ l) (hne : e.orderId ≠ oid) : e ∈ eraseEntry oid l := by
  induction l with
  | nil => simp at he
  | cons e2 es ih =>
    rw [eraseEntry]
    rcases List.mem_cons.1 he with rfl | h2
    · rw [if_neg hne]
      exact List.mem_cons_self _ _
    · split
      · exact h2
      · exact List.mem_cons_of_mem _ (ih h2)

theorem map_eraseEntry_mem (oid : OrderId) (l : List OrderEntry)
    (hnd : (l.map OrderEntry.orderId).Nodup) (i : OrderId) :
    i ∈ (eraseEntry oid l).map OrderEntry.orderId ↔
      i ∈ l.map OrderEntry.orderId ∧ i ≠ oid := by
  induction l with
  | nil => simp [eraseEntry]
  | cons e es ih =>
    simp only [List.map_cons, List.nodup_cons] at hnd
    rw [eraseEntry]
    split
    · rename_i h
      simp only [List.map_cons, List.mem_cons]
      constructor
      · intro h2
        refine ⟨Or.inr h2, ?_⟩
        rintro rfl
        rw [h] at hnd
        exact hnd.1 h2
      · rintro ⟨rfl | h2, h3⟩
        · exact absurd h h3
        · exact h2
    · rename_i h
      simp only [List.map_cons, List.mem_cons, ih hnd.2]
      constructor
      · rintro (rfl | ⟨h2, h3⟩)
        · exact ⟨Or.inl rfl, h⟩
        · exact ⟨Or.inr h2, h3⟩
      · rintro ⟨rfl | h2, h3⟩
        · exact Or.inl rfl
        · exact Or.inr ⟨h2, h3⟩

theorem mem_of_mem_eraseEntry (oid : OrderId) (l : List OrderEntry) (e : OrderEntry)
    (h : e ∈ eraseEntry oid l) : e ∈ l :=
  (eraseEntry_sublist oid l).mem h

theorem eraseEntry_mem_ne (oid : OrderId) (l : List OrderEntry)
    (hnd : (l.map OrderEntry.orderId).Nodup) (e : OrderEntry)
    (h : e ∈ eraseEntry oid l) : e.orderId ≠ oid := by
  have h2 : e.orderId ∈ (eraseEntry oid l).map OrderEntry.orderId :=
    List.mem_map_of_mem _ h
  exact ((map_eraseEntry_mem oid l hnd _).1 h2).2

theorem eraseEntries_sublist (ids : List OrderId) (l : List OrderEntry) :
    List.Sublist (eraseEntries ids l) l := by
  induction ids generalizing l with
  | nil => simp [eraseEntries]
  | cons i ids ih =>
    rw [eraseEntries, List.foldl_cons]
    exact ((ih (eraseEntry i l)).trans (eraseEntry_sublist i l))

theorem mem_idx_eraseEntries (ids : List OrderId) (l : List OrderEntry)
    (hnd : (l.map OrderEntry.orderId).Nodup) (i : OrderId) :
    i ∈ (eraseEntries ids l).map OrderEntry.orderId ↔
      i ∈ l.map OrderEntry.orderId ∧ i ∉ ids := by
  induction ids generalizing l with
  | nil => simp [eraseEntries]
  | cons j ids ih =>
    rw [eraseEntries, List.foldl_cons]
    have hnd2 : ((eraseEntry j l).map OrderEntry.orderId).Nodup :=
      hnd.sublist ((eraseEntry_sublist j l).map _)
    rw [show List.foldl (fun acc i => eraseEntry i acc) (eraseEntry j l) ids =
          eraseEntries ids (eraseEntry j l) from rfl,
        ih (eraseEntry j l) hnd2, map_eraseEntry_mem j l hnd i]
    simp only [List.mem_cons, not_or]
    constructor
    · rintro ⟨⟨h1, h2⟩, h3⟩
      exact ⟨h1, h2, h3⟩
    · rintro ⟨h1, h2, h3⟩
      exact ⟨⟨h1, h2⟩, h3⟩

theorem mem_of_mem_eraseEntries (ids : List OrderId) (l : List OrderEntry) (e : OrderEntry)
    (h : e ∈ eraseEntries ids l) : e ∈ l :=
  (eraseEntries_sublist ids l).mem h

theorem lookupEntry_eraseEntry_self (oid : OrderId) (l : List OrderEntry)
    (hnd : (l.map OrderEntry.orderId).Nodup) :
    lookupEntry oid (eraseEntry oid l) = none := by
  rw [lookupEntry_eq_none, map_eraseEntry_mem oid l hnd]
  rintro ⟨_, h⟩
  exact h rfl

/-! ### Lemmas about the queue helpers -/

theorem eraseOrder_sublist (oid : OrderId) (os : List Order) :
    List.Sublist (eraseOrder oid os) os := by
  induction os with
  | nil => simp [eraseOrder]
  | cons o os ih =>
    rw [eraseOrder]
    split
    · exact List.sublist_cons_self o os
    · exact List.Sublist.cons₂ o ih

theorem eraseOrder_of_not_mem (oid : OrderId) (os : List Order)
    (h : oid ∉ queueIds os) : eraseOrder oid os = os := by
  induction os with
  | nil => rfl
  | cons o os ih =>
    simp only [queueIds, List.map_cons, List.mem_cons, not_or] at h
    rw [eraseOrder, if_neg (fun h2 => h.1 h2.symm)]
    rw [ih (by simpa [queueIds] using h.2)]

theorem mem_eraseOrder_of_ne (oid : OrderId) (os : List Order) (x : Order)
    (hx : x ∈ os) (hne : x.orderId ≠ oid) : x ∈ eraseOrder oid os := by
  induction os with
  | nil => simp at hx
  | cons o os ih =>
    rw [eraseOrder]
    rcases List.mem_cons.1 hx with rfl | h2
    · rw [if_neg hne]
      exact List.mem_cons_self _ _
    · split
      · exact h2
      · exact List.mem_cons_of_mem _ (ih h2)

theorem queueIds_eraseOrder_mem (oid : OrderId) (os : List Order)
    (hnd : (queueIds os).Nodup) (i : OrderId) :
    i ∈ queueIds (eraseOrder oid os) ↔ i ∈ queueIds os ∧ i ≠ oid := by
  induction os with
  | nil => simp [eraseOrder, queueIds]
  | cons o os ih =>
    simp only [queueIds, List.map_cons, List.nodup_cons] at hnd
    rw [eraseOrder]
    split
    · rename_i h
      simp only [queueIds, List.map_cons, List.mem_cons]
      constructor
      · intro h2
        refine ⟨Or.inr h2, ?_⟩
        rintro rfl
        rw [h] at hnd
        exact hnd.1 h2
      · rintro ⟨rfl | h2, h3⟩
        · exact absurd h h3
        · exact h2
    · rename_i h
      have ih2 := ih hnd.2
      simp only [queueIds, List.map_cons, List.mem_cons] at ih2 ⊢
      rw [ih2]
      constructor
      · rintro (rfl | ⟨h2, h3⟩)
        · exact ⟨Or.inl rfl, h⟩
        · exact ⟨Or.inr h2, h3⟩
      · rintro ⟨rfl | h2, h3⟩
        · exact Or.inl rfl
        · exact Or.inr ⟨h2, h3⟩

/-! ### Lemmas about sides, levels and insertion -/

theorem sideOrders_cons (l : Price × List Order) (rest : BookSide) :
    sideOrders (l :: rest) = l.2 ++ sideOrders rest := rfl

theorem sideIds_cons (l : Price × List Order) (rest : BookSide) :
    sideIds (l :: rest) = queueIds l.2 ++ sideIds rest := by
  simp [sideIds, sideOrders, queueIds]

theorem mem_sideOrders (s : BookSide) (x : Order) :
    x ∈ sideOrders s ↔ ∃ l ∈ s, x ∈ l.2 := by
  induction s with
  | nil => simp [sideOrders]
  | cons l rest ih =>
    simp only [sideOrders, List.mem_append, ih, List.mem_cons]
    constructor
    · rintro (h | ⟨l2, hl2, hx⟩)
      · exact ⟨l, Or.inl rfl, h⟩
      · exact ⟨l2, Or.inr hl2, hx⟩
    · rintro ⟨l2, (rfl | hl2), hx⟩
      · exact Or.inl hx
      · exact Or.inr ⟨l2, hl2, hx⟩

theorem mem_sideIds (s : BookSide) (i : OrderId) :
    i ∈ sideIds s ↔ ∃ x ∈ sideOrders s, x.orderId = i := by
  simp [sideIds, queueIds]

theorem sideOrders_putLevel (p : Price) (q : List Order) (rest : BookSide) :
    sideOrders (putLevel p q rest) = q ++ sideOrders rest := by
  rw [putLevel]
  split
  · rename_i h
    rw [List.isEmpty_iff] at h
    simp [h]
  · rfl

theorem sideIds_putLevel (p : Price) (q : List Order) (rest : BookSide) :
    sideIds (putLevel p q rest) = queueIds q ++ sideIds rest := by
  simp [sideIds, sideOrders_putLevel, queueIds]

theorem mem_putLevel (p : Price) (q : List Order) (rest : BookSide) (l : Price × List Order)
    (h : l ∈ putLevel p q rest) : (l = (p, q) ∧ q ≠ []) ∨ l ∈ rest := by
  rw [putLevel] at h
  split at h
  · exact Or.inr h
  · rename_i h2
    rw [List.isEmpty_iff] at h2
    rcases List.mem_cons.1 h with rfl | h3
    · exact Or.inl ⟨rfl, h2⟩
    · exact Or.inr h3

theorem putLevel_fst_suffix (p : Price) (q : List Order) (rest : BookSide) :
    (putLevel p q rest).map Prod.fst <:+ p :: rest.map Prod.fst := by
  rw [putLevel]
  split
  · exact (List.suffix_cons p _).trans (by simp)
  · simp

/-! ### Lemmas about SameCore -/

theorem SameCore.rfl (o : Order) : SameCore o o :=
  ⟨by rfl, by rfl, by rfl, by rfl, by rfl, le_refl _⟩

theorem SameCore.trans {a b c : Order} (h1 : SameCore a b) (h2 : SameCore b c) :
    SameCore a c :=
  ⟨h1.1.trans h2.1, h1.2.1.trans h2.2.1, h1.2.2.1.trans h2.2.2.1,
   h1.2.2.2.1.trans h2.2.2.2.1, h1.2.2.2.2.1.trans h2.2.2.2.2.1,
   h1.2.2.2.2.2.trans h2.2.2.2.2.2⟩

theorem SameCore.fillBy (o : Order) (q : Quantity) : SameCore (fillBy o q) o :=
  ⟨by rfl, by rfl, by rfl, by rfl, by rfl, Nat.sub_le _ _⟩

/-! ### Lemmas about insertIntoSide -/

theorem insertIntoSide_fst_mem (before : Price → Price → Bool) (o : Order) (s : BookSide) :
    ∀ l ∈ insertIntoSide before o s, l.1 = o.price ∨ l.1 ∈ s.map Prod.fst := by
  induction s with
  | nil =>
    intro l hl
    rw [insertIntoSide] at hl
    rcases List.mem_singleton.1 hl with rfl
    exact Or.inl rfl
  | cons hd rest ih =>
    obtain ⟨p, os⟩ := hd
    intro l hl
    rw [insertIntoSide] at hl
    split at hl
    · rcases List.mem_cons.1 hl with rfl | h2
      · exact Or.inr (by simp)
      · simp only [List.map_cons, List.mem_cons]
        rcases (List.mem_map.1 (List.mem_map_of_mem Prod.fst h2)) with ⟨l2, hl2, h3⟩
        exact Or.inr (Or.inr (h3 ▸ List.mem_map_of_mem _ hl2))
    · split at hl
      · rcases List.mem_cons.1 hl with rfl | h2
        · exact Or.inl rfl
        · rcases List.mem_cons.1 h2 with rfl | h3
          · exact Or.inr (by simp)
          · exact Or.inr (by simp only [List.map_cons, List.mem_cons]; exact Or.inr (List.mem_map_of_mem _ h3))
      · rcases List.mem_cons.1 hl with rfl | h2
        · exact Or.inr (by simp)
        · rcases ih l h2 with h3 | h3
          · exact Or.inl h3
          · exact Or.inr (by simp only [List.map_cons, List.mem_cons]; exact Or.inr h3)

theorem insertIntoSide_sorted (before : Price → Price → Bool)
    (htr : ∀ a b c : Price, before a b = true → before b c = true → before a c = true)
    (htot : ∀ a b : Price, a ≠ b → before a b = true ∨ before b a = true)
    (o : Order) (s : BookSide)
    (hs : s.Pairwise (fun x y => before x.1 y.1 = true)) :
    (insertIntoSide before o s).Pairwise (fun x y => before x.1 y.1 = true) := by
  induction s with
  | nil => simp [insertIntoSide]
  | cons hd rest ih =>
    obtain ⟨p, os⟩ := hd
    rw [List.pairwise_cons] at hs
    rw [insertIntoSide]
    split
    · rw [List.pairwise_cons]
      exact ⟨fun y hy => hs.1 y hy, hs.2⟩
    · split
      · rename_i hne hb
        rw [List.pairwise_cons]
        constructor
        · intro y hy
          rcases List.mem_cons.1 hy with rfl | h2
          · exact hb
          · exact htr _ _ _ hb (hs.1 y h2)
        · rw [List.pairwise_cons]
          exact hs
      · rename_i hne hb
        have h3 : before p o.price = true := by
          rcases htot o.price p hne with h4 | h4
          · exact absurd h4 hb
          · exact h4
        rw [List.pairwise_cons]
        constructor
        · intro y hy
          rcases insertIntoSide_fst_mem before o rest y hy with h4 | h4
          · rw [h4]
            exact h3
          · rcases List.mem_map.1 h4 with ⟨l2, hl2, h5⟩
            exact h5 ▸ hs.1 l2 hl2
        · exact ih hs.2

theorem insertIntoSide_nonempty (before : Price → Price → Bool) (o : Order) (s : BookSide)
    (hs : ∀ l ∈ s, l.2 ≠ []) : ∀ l ∈ insertIntoSide before o s, l.2 ≠ [] := by
  induction s with
  | nil =>
    intro l hl
    rw [insertIntoSide] at hl
    rcases List.mem_singleton.1 hl with rfl
    simp
  | cons hd rest ih =>
    obtain ⟨p, os⟩ := hd
    intro l hl
    rw [insertIntoSide] at hl
    split at hl
    · rcases List.mem_cons.1 hl with rfl | h2
      · simp
      · exact hs l (List.mem_cons_of_mem _ h2)
    · split at hl
      · rcases List.mem_cons.1 hl with rfl | h2
        · simp
        · exact hs l h2
      · rcases List.mem_cons.1 hl with rfl | h2
        · exact hs _ (List.mem_cons_self _ _)
        · exact ih (fun l2 hl2 => hs l2 (List.mem_cons_of_mem _ hl2)) l h2

theorem insertIntoSide_coherent (before : Price → Price → Bool) (o : Order) (s : BookSide)
    (sd : Side) (ho : o.side = sd) (hs : ∀ l ∈ s, ∀ x ∈ l.2, x.side = sd ∧ x.price = l.1) :
    ∀ l ∈ insertIntoSide before o s, ∀ x ∈ l.2, x.side = sd ∧ x.price = l.1 := by
  induction s with
  | nil =>
    intro l hl x hx
    rw [insertIntoSide] at hl
    rcases List.mem_singleton.1 hl with rfl
    rcases List.mem_singleton.1 hx with rfl
    exact ⟨ho, rfl⟩
  | cons hd rest ih =>
    obtain ⟨p, os⟩ := hd
    intro l hl x hx
    rw [insertIntoSide] at hl
    split at hl
    · rename_i heq
      rcases List.mem_cons.1 hl with rfl | h2
      · rcases List.mem_append.1 hx with h3 | h3
        · exact hs (p, os) (List.mem_cons_self _ _) x h3
        · rcases List.mem_singleton.1 h3 with rfl
          exact ⟨ho, heq⟩
      · exact hs l (List.mem_cons_of_mem _ h2) x hx
    · split at hl
      · rcases List.mem_cons.1 hl with rfl | h2
        · rcases List.mem_singleton.1 hx with rfl
          exact ⟨ho, rfl⟩
        · exact hs l h2 x hx
      · rcases List.mem_cons.1 hl with rfl | h2
        · exact hs _ (List.mem_cons_self _ _) x hx
        · exact ih (fun l2 hl2 => hs l2 (List.mem_cons_of_mem _ hl2)) l h2 x hx

theorem sideOrders_insertIntoSide_perm (before : Price → Price → Bool) (o : Order) (s : BookSide) :
    List.Perm (sideOrders (insertIntoSide before o s)) (o :: sideOrders s) := by
  induction s with
  | nil => simp [insertIntoSide, sideOrders]
  | cons hd rest ih =>
    obtain ⟨p, os⟩ := hd
    rw [insertIntoSide]
    split
    · rw [sideOrders_cons, sideOrders_cons]
      simp only [List.append_assoc, List.singleton_append]
      exact List.perm_middle
    · split
      · simp [sideOrders_cons]
      · rw [sideOrders_cons, sideOrders_cons]
        exact (ih.append_left os).trans List.perm_middle

/-! ### Structural lemmas about the inner matching loop -/

theorem queueIds_cons (o : Order) (os : List Order) :
    queueIds (o :: os) = o.orderId :: queueIds os := rfl

theorem matchLevel_spec (bq aq : List Order) :
    ∃ n m : Nat,
      queueIds (matchLevel bq aq).bidQueue = (queueIds bq).drop n ∧
      queueIds (matchLevel bq aq).askQueue = (queueIds aq).drop m ∧
      (∀ i, i ∈ (matchLevel bq aq).removed ↔
        i ∈ (queueIds bq).take n ∨ i ∈ (queueIds aq).take m) ∧
      (∀ x ∈ (matchLevel bq aq).bidQueue, ∃ y ∈ bq, SameCore x y) ∧
      (∀ x ∈ (matchLevel bq aq).askQueue, ∃ y ∈ aq, SameCore x y) := by
  induction bq, aq using matchLevel.induct with
  | case1 aq =>
    refine ⟨0, 0, by simp [matchLevel], by simp [matchLevel], by simp [matchLevel], by simp [matchLevel], ?_⟩
    intro x hx
    rw [matchLevel] at hx
    exact ⟨x, hx, SameCore.rfl x⟩
  | case2 bid bq =>
    refine ⟨0, 0, by simp [matchLevel], by simp [matchLevel], by simp [matchLevel], ?_, by simp [matchLevel]⟩
    intro x hx
    rw [matchLevel] at hx
    exact ⟨x, hx, SameCore.rfl x⟩
  | case3 bid bq ask aq h1 h2 ih =>
    obtain ⟨n, m, e1, e2, e3, e4, e5⟩ := ih
    refine ⟨n + 1, m + 1, ?_, ?_, ?_, ?_, ?_⟩
    · rw [show (matchLevel (bid :: bq) (ask :: aq)).bidQueue = (matchLevel bq aq).bidQueue by
        simp [matchLevel, h1, h2]]
      rw [e1, queueIds_cons, List.drop_succ_cons]
    · rw [show (matchLevel (bid :: bq) (ask :: aq)).askQueue = (matchLevel bq aq).askQueue by
        simp [matchLevel, h1, h2]]
      rw [e2, queueIds_cons, List.drop_succ_cons]
    · intro i
      rw [show (matchLevel (bid :: bq) (ask :: aq)).removed =
          bid.orderId :: ask.orderId :: (matchLevel bq aq).removed by simp [matchLevel, h1, h2]]
      rw [queueIds_cons, queueIds_cons, List.take_succ_cons, List.take_succ_cons]
      simp only [List.mem_cons, e3 i]
      tauto
    · intro x hx
      rw [show (matchLevel (bid :: bq) (ask :: aq)).bidQueue = (matchLevel bq aq).bidQueue by
        simp [matchLevel, h1, h2]] at hx
      obtain ⟨y, hy, hc⟩ := e4 x hx
      exact ⟨y, List.mem_cons_of_mem _ hy, hc⟩
    · intro x hx
      rw [show (matchLevel (bid :: bq) (ask :: aq)).askQueue = (matchLevel bq aq).askQueue by
        simp [matchLevel, h1, h2]] at hx
      obtain ⟨y, hy, hc⟩ := e5 x hx
      exact ⟨y, List.mem_cons_of_mem _ hy, hc⟩
  | case4 bid bq ask aq h1 h2 ih =>
    obtain ⟨n, m, e1, e2, e3, e4, e5⟩ := ih
    have hbq : (matchLevel (bid :: bq) (ask :: aq)).bidQueue =
        (matchLevel bq (fillBy ask (bid.remainingQuantity ⊓ ask.remainingQuantity) :: aq)).bidQueue := by
      simp [matchLevel, h1, h2]
    have haq : (matchLevel (bid :: bq) (ask :: aq)).askQueue =
        (matchLevel bq (fillBy ask (bid.remainingQuantity ⊓ ask.remainingQuantity) :: aq)).askQueue := by
      simp [matchLevel, h1, h2]
    have hrm : (matchLevel (bid :: bq) (ask :: aq)).removed =
        bid.orderId :: (matchLevel bq (fillBy ask (bid.remainingQuantity ⊓ ask.remainingQuantity) :: aq)).removed := by
      simp [matchLevel, h1, h2]
    refine ⟨n + 1, m, ?_, ?_, ?_, ?_, ?_⟩
    · rw [hbq, e1, queueIds_cons, List.drop_succ_cons]
    · rw [haq, e2]
      rfl
    · intro i
      rw [hrm]
      have e3i := e3 i
      rw [show queueIds (fillBy ask (bid.remainingQuantity ⊓ ask.remainingQuantity) :: aq) =
          queueIds (ask :: aq) from rfl] at e3i
      rw [queueIds_cons, List.take_succ_cons]
      simp only [List.mem_cons, e3i]
      tauto
    · intro x hx
      rw [hbq] at hx
      obtain ⟨y, hy, hc⟩ := e4 x hx
      exact ⟨y, List.mem_cons_of_mem _ hy, hc⟩
    · intro x hx
      rw [haq] at hx
      obtain ⟨y, hy, hc⟩ := e5 x hx
      rcases List.mem_cons.1 hy with rfl | h3
      · exact ⟨ask, List.mem_cons_self _ _, hc.trans (SameCore.fillBy ask _)⟩
      · exact ⟨y, List.mem_cons_of_mem _ h3, hc⟩
  | case5 bid bq ask aq h1 ih =>
    obtain ⟨n, m, e1, e2, e3, e4, e5⟩ := ih
    have hbq : (matchLevel (bid :: bq) (ask :: aq)).bidQueue =
        (matchLevel (fillBy bid (bid.remainingQuantity ⊓ ask.remainingQuantity) :: bq) aq).bidQueue := by
      simp [matchLevel, h1]
    have haq : (matchLevel (bid :: bq) (ask :: aq)).askQueue =
        (matchLevel (fillBy bid (bid.remainingQuantity ⊓ ask.remainingQuantity) :: bq) aq).askQueue := by
      simp [matchLevel, h1]
    have hrm : (matchLevel (bid :: bq) (ask :: aq)).removed =
        ask.orderId :: (matchLevel (fillBy bid (bid.remainingQuantity ⊓ ask.remainingQuantity) :: bq) aq).removed := by
      simp [matchLevel, h1]
    refine ⟨n, m + 1, ?_, ?_, ?_, ?_, ?_⟩
    · rw [hbq, e1]
      rfl
    · rw [haq, e2, queueIds_cons, List.drop_succ_cons]
    · intro i
      rw [hrm]
      have e3i := e3 i
      rw [show queueIds (fillBy bid (bid.remainingQuantity ⊓ ask.remainingQuantity) :: bq) =
          queueIds (bid :: bq) from rfl] at e3i
      simp only [queueIds_cons, List.take_succ_cons, List.mem_cons] at e3i ⊢
      rw [e3i]
      tauto
    · intro x hx
      rw [hbq] at hx
      obtain ⟨y, hy, hc⟩ := e4 x hx
      rcases List.mem_cons.1 hy with rfl | h3
      · exact ⟨bid, List.mem_cons_self _ _, hc.trans (SameCore.fillBy bid _)⟩
      · exact ⟨y, List.mem_cons_of_mem _ h3, hc⟩
    · intro x hx
      rw [haq] at hx
      obtain ⟨y, hy, hc⟩ := e5 x hx
      exact ⟨y, List.mem_cons_of_mem _ hy, hc⟩

/-! ### Structural lemmas about the outer matching loop -/

theorem matchBooks_stop (bp : Price) (bq : List Order) (bks : BookSide)
    (ap : Price) (aq : List Order) (aks : BookSide) (h : bp < ap) :
    matchBooks ((bp, bq) :: bks) ((ap, aq) :: aks) =
      ⟨(bp, bq) :: bks, (ap, aq) :: aks, [], []⟩ := by
  rw [matchBooks, if_pos h]

theorem matchBooks_go (bp : Price) (bq : List Order) (bks : BookSide)
    (ap : Price) (aq : List Order) (aks : BookSide) (h : ¬ bp < ap) :
    matchBooks ((bp, bq) :: bks) ((ap, aq) :: aks) =
      ⟨(matchBooks (putLevel bp (matchLevel bq aq).bidQueue bks)
          (putLevel ap (matchLevel bq aq).askQueue aks)).bids,
       (matchBooks (putLevel bp (matchLevel bq aq).bidQueue bks)
          (putLevel ap (matchLevel bq aq).askQueue aks)).asks,
       (matchLevel bq aq).trades ++
         (matchBooks (putLevel bp (matchLevel bq aq).bidQueue bks)
            (putLevel ap (matchLevel bq aq).askQueue aks)).trades,
       (matchLevel bq aq).removed ++
         (matchBooks (putLevel bp (matchLevel bq aq).bidQueue bks)
            (putLevel ap (matchLevel bq aq).askQueue aks)).removed⟩ := by
  rw [matchBooks, if_neg h]

theorem matchBooks_prices (B A : BookSide) :
    (matchBooks B A).bids.map Prod.fst <:+ B.map Prod.fst ∧
    (matchBooks B A).asks.map Prod.fst <:+ A.map Prod.fst := by
  induction B, A using matchBooks.induct with
  | case1 aks =>
    rw [matchBooks]
    exact ⟨List.suffix_refl _, List.suffix_refl _⟩
  | case2 bl bks =>
    rw [matchBooks]
    exact ⟨List.suffix_refl _, List.suffix_refl _⟩
  | case3 bp bq bks ap aq aks h =>
    rw [matchBooks_stop _ _ _ _ _ _ h]
    exact ⟨List.suffix_refl _, List.suffix_refl _⟩
  | case4 bp bq bks ap aq aks h r ih =>
    rw [matchBooks_go _ _ _ _ _ _ h]
    constructor
    · exact ih.1.trans ((putLevel_fst_suffix _ _ _).trans (by simp))
    · exact ih.2.trans ((putLevel_fst_suffix _ _ _).trans (by simp))

theorem matchBooks_len (B A : BookSide) :
    (matchBooks B A).bids.length ≤ B.length ∧ (matchBooks B A).asks.length ≤ A.length := by
  have h := matchBooks_prices B A
  constructor
  · have := h.1.length_le
    simpa using this
  · have := h.2.length_le
    simpa using this

theorem matchBooks_nonempty (B A : BookSide) :
    (∀ l ∈ B, l.2 ≠ []) → (∀ l ∈ A, l.2 ≠ []) →
    (∀ l ∈ (matchBooks B A).bids, l.2 ≠ []) ∧ (∀ l ∈ (matchBooks B A).asks, l.2 ≠ []) := by
  induction B, A using matchBooks.induct with
  | case1 aks =>
    intro hB hA
    rw [matchBooks]
    exact ⟨by simp, hA⟩
  | case2 bl bks =>
    intro hB hA
    rw [matchBooks]
    exact ⟨hB, by simp⟩
  | case3 bp bq bks ap aq aks h =>
    intro hB hA
    rw [matchBooks_stop _ _ _ _ _ _ h]
    exact ⟨hB, hA⟩
  | case4 bp bq bks ap aq aks h r ih =>
    intro hB hA
    rw [matchBooks_go _ _ _ _ _ _ h]
    refine ih ?_ ?_
    · intro l hl
      rcases mem_putLevel _ _ _ _ hl with ⟨rfl, hne⟩ | hl2
      · exact hne
      · exact hB l (List.mem_cons_of_mem _ hl2)
    · intro l hl
      rcases mem_putLevel _ _ _ _ hl with ⟨rfl, hne⟩ | hl2
      · exact hne
      · exact hA l (List.mem_cons_of_mem _ hl2)

theorem matchBooks_coherent (B A : BookSide) (sb sa : Side) :
    (∀ l ∈ B, ∀ x ∈ l.2, x.side = sb ∧ x.price = l.1) →
    (∀ l ∈ A, ∀ x ∈ l.2, x.side = sa ∧ x.price = l.1) →
    (∀ l ∈ (matchBooks B A).bids, ∀ x ∈ l.2, x.side = sb ∧ x.price = l.1) ∧
    (∀ l ∈ (matchBooks B A).asks, ∀ x ∈ l.2, x.side = sa ∧ x.price = l.1) := by
  induction B, A using matchBooks.induct with
  | case1 aks =>
    intro hB hA
    rw [matchBooks]
    exact ⟨by simp, hA⟩
  | case2 bl bks =>
    intro hB hA
    rw [matchBooks]
    exact ⟨hB, by simp⟩
  | case3 bp bq bks ap aq aks h =>
    intro hB hA
    rw [matchBooks_stop _ _ _ _ _ _ h]
    exact ⟨hB, hA⟩
  | case4 bp bq bks ap aq aks h r ih =>
    intro hB hA
    rw [matchBooks_go _ _ _ _ _ _ h]
    obtain ⟨_, _, _, e4, e5⟩ :=
      (matchLevel_spec bq aq).choose_spec.choose_spec
    refine ih ?_ ?_
    · intro l hl
      rcases mem_putLevel _ _ _ _ hl with ⟨rfl, _⟩ | hl2
      · intro x hx
        obtain ⟨y, hy, hc⟩ := e4 x hx
        have h2 := hB (bp, bq) (List.mem_cons_self _ _) y hy
        exact ⟨hc.2.2.1.trans h2.1, hc.2.2.2.1.trans h2.2⟩
      · exact hB l (List.mem_cons_of_mem _ hl2)
    · intro l hl
      rcases mem_putLevel _ _ _ _ hl with ⟨rfl, _⟩ | hl2
      · intro x hx
        obtain ⟨y, hy, hc⟩ := e5 x hx
        have h2 := hA (ap, aq) (List.mem_cons_self _ _) y hy
        exact ⟨hc.2.2.1.trans h2.1, hc.2.2.2.1.trans h2.2⟩
      · exact hA l (List.mem_cons_of_mem _ hl2)

theorem matchBooks_core (B A : BookSide) :
    (∀ x ∈ sideOrders (matchBooks B A).bids, ∃ y ∈ sideOrders B, SameCore x y) ∧
    (∀ x ∈ sideOrders (matchBooks B A).asks, ∃ y ∈ sideOrders A, SameCore x y) := by
  induction B, A using matchBooks.induct with
  | case1 aks =>
    rw [matchBooks]
    exact ⟨by simp [sideOrders], fun x hx => ⟨x, hx, SameCore.rfl x⟩⟩
  | case2 bl bks =>
    rw [matchBooks]
    exact ⟨fun x hx => ⟨x, hx, SameCore.rfl x⟩, by simp [sideOrders]⟩
  | case3 bp bq bks ap aq aks h =>
    rw [matchBooks_stop _ _ _ _ _ _ h]
    exact ⟨fun x hx => ⟨x, hx, SameCore.rfl x⟩, fun x hx => ⟨x, hx, SameCore.rfl x⟩⟩
  | case4 bp bq bks ap aq aks h r ih =>
    rw [matchBooks_go _ _ _ _ _ _ h]
    obtain ⟨_, _, _, e4, e5⟩ := (matchLevel_spec bq aq).choose_spec.choose_spec
    constructor
    · intro x hx
      obtain ⟨y, hy, hc⟩ := ih.1 x hx
      rw [sideOrders_putLevel, List.mem_append] at hy
      rcases hy with hy | hy
      · obtain ⟨z, hz, hc2⟩ := e4 y hy
        exact ⟨z, by rw [sideOrders_cons, List.mem_append]; exact Or.inl hz, hc.trans hc2⟩
      · exact ⟨y, by rw [sideOrders_cons, List.mem_append]; exact Or.inr hy, hc⟩
    · intro x hx
      obtain ⟨y, hy, hc⟩ := ih.2 x hx
      rw [sideOrders_putLevel, List.mem_append] at hy
      rcases hy with hy | hy
      · obtain ⟨z, hz, hc2⟩ := e5 y hy
        exact ⟨z, by rw [sideOrders_cons, List.mem_append]; exact Or.inl hz, hc.trans hc2⟩
      · exact ⟨y, by rw [sideOrders_cons, List.mem_append]; exact Or.inr hy, hc⟩

theorem matchBooks_ids (B A : BookSide) :
    ∃ cb ca : List OrderId,
      sideIds B = cb ++ sideIds (matchBooks B A).bids ∧
      sideIds A = ca ++ sideIds (matchBooks B A).asks ∧
      ∀ i, i ∈ (matchBooks B A).removed ↔ i ∈ cb ∨ i ∈ ca := by
  induction B, A using matchBooks.induct with
  | case1 aks =>
    rw [matchBooks]
    exact ⟨[], [], by simp [sideIds, sideOrders, queueIds], by simp, by simp⟩
  | case2 bl bks =>
    rw [matchBooks]
    exact ⟨[], [], by simp, by simp [sideIds, sideOrders, queueIds], by simp⟩
  | case3 bp bq bks ap aq aks h =>
    rw [matchBooks_stop _ _ _ _ _ _ h]
    exact ⟨[], [], by simp, by simp, by simp⟩
  | case4 bp bq bks ap aq aks h r ih =>
    rw [matchBooks_go _ _ _ _ _ _ h]
    obtain ⟨n, m, e1, e2, e3, _, _⟩ := matchLevel_spec bq aq
    obtain ⟨cb, ca, f1, f2, f3⟩ := ih
    rw [sideIds_putLevel, e1] at f1
    rw [sideIds_putLevel, e2] at f2
    refine ⟨(queueIds bq).take n ++ cb, (queueIds aq).take m ++ ca, ?_, ?_, ?_⟩
    · rw [sideIds_cons, List.append_assoc, ← f1, ← List.append_assoc, List.take_append_drop]
    · rw [sideIds_cons, List.append_assoc, ← f2, ← List.append_assoc, List.take_append_drop]
    · intro i
      simp only [List.mem_append, e3 i, f3 i]
      tauto

theorem uncrossed_left (A : BookSide) : Uncrossed [] A := by
  cases A <;> trivial

theorem uncrossed_right (B : BookSide) : Uncrossed B [] := by
  cases B with
  | nil => trivial
  | cons l rest => obtain ⟨p, os⟩ := l; trivial

theorem matchBooks_uncrossed (B A : BookSide) :
    Uncrossed (matchBooks B A).bids (matchBooks B A).asks := by
  induction B, A using matchBooks.induct with
  | case1 aks =>
    rw [matchBooks]
    exact uncrossed_left aks
  | case2 bl bks =>
    rw [matchBooks]
    exact uncrossed_right (bl :: bks)
  | case3 bp bq bks ap aq aks h =>
    rw [matchBooks_stop _ _ _ _ _ _ h]
    exact h
  | case4 bp bq bks ap aq aks h r ih =>
    rw [matchBooks_go _ _ _ _ _ _ h]
    exact ih

/-! ### The matching loop preserves the invariant -/

theorem bookIds_eq (b : Orderbook) :
    b.bookIds = sideIds b.bids ++ sideIds b.asks := by
  simp [Orderbook.bookIds, Orderbook.allOrders, sideIds, queueIds]

theorem PreWF.matchOrders {b : Orderbook} (h : PreWF b) : WF (b.MatchOrders).1 := by
  have hM : (b.MatchOrders).1 = Orderbook.mk (matchBooks b.bids b.asks).bids
      (matchBooks b.bids b.asks).asks
      (eraseEntries (matchBooks b.bids b.asks).removed b.orders) := rfl
  rw [hM]
  obtain ⟨cb, ca, f1, f2, f3⟩ := matchBooks_ids b.bids b.asks
  have hnodup2 : ((cb ++ sideIds (matchBooks b.bids b.asks).bids) ++
      (ca ++ sideIds (matchBooks b.bids b.asks).asks)).Nodup := by
    rw [← f1, ← f2, ← bookIds_eq]
    exact h.nodupBook
  obtain ⟨hn1, hn2, hd⟩ := List.nodup_append.1 hnodup2
  obtain ⟨hcb, houtB, hd1⟩ := List.nodup_append.1 hn1
  obtain ⟨hca, houtA, hd2⟩ := List.nodup_append.1 hn2
  have hImem : ∀ i, i ∈ (Orderbook.mk (matchBooks b.bids b.asks).bids
      (matchBooks b.bids b.asks).asks
      (eraseEntries (matchBooks b.bids b.asks).removed b.orders)).idxIds ↔
      i ∈ b.idxIds ∧ i ∉ (matchBooks b.bids b.asks).removed := by
    intro i
    exact mem_idx_eraseEntries _ _ h.nodupIdx i
  have hBmem : ∀ i, i ∈ (Orderbook.mk (matchBooks b.bids b.asks).bids
      (matchBooks b.bids b.asks).asks
      (eraseEntries (matchBooks b.bids b.asks).removed b.orders)).bookIds ↔
      i ∈ b.bookIds ∧ i ∉ (matchBooks b.bids b.asks).removed := by
    intro i
    rw [bookIds_eq]
    show i ∈ sideIds (matchBooks b.bids b.asks).bids ++ sideIds (matchBooks b.bids b.asks).asks ↔
      i ∈ b.bookIds ∧ i ∉ (matchBooks b.bids b.asks).removed
    rw [List.mem_append]
    constructor
    · intro hi
      rcases hi with hi | hi
      · refine ⟨by rw [bookIds_eq, f1, f2]; simp [hi], ?_⟩
        rw [f3]
        rintro (hc | hc)
        · exact hd1 hc hi
        · exact hd (List.mem_append.2 (Or.inr hi)) (List.mem_append.2 (Or.inl hc))
      · refine ⟨by rw [bookIds_eq, f1, f2]; simp [hi], ?_⟩
        rw [f3]
        rintro (hc | hc)
        · exact hd (List.mem_append.2 (Or.inl hc)) (List.mem_append.2 (Or.inr hi))
        · exact hd2 hc hi
    · rintro ⟨hi, hrm⟩
      rw [f3] at hrm
      rw [bookIds_eq, f1, f2, List.mem_append, List.mem_append, List.mem_append] at hi
      rcases hi with (hi | hi) | (hi | hi)
      · exact absurd (Or.inl hi) hrm
      · exact Or.inl hi
      · exact absurd (Or.inr hi) hrm
      · exact Or.inr hi
  have hIds : ∀ i, i ∈ (Orderbook.mk (matchBooks b.bids b.asks).bids
      (matchBooks b.bids b.asks).asks
      (eraseEntries (matchBooks b.bids b.asks).removed b.orders)).idxIds ↔
      i ∈ (Orderbook.mk (matchBooks b.bids b.asks).bids
      (matchBooks b.bids b.asks).asks
      (eraseEntries (matchBooks b.bids b.asks).removed b.orders)).bookIds := by
    intro i
    rw [hImem i, hBmem i, h.idsMatch i]
  refine ⟨?_, ?_, ?_, ?_, ?_, ?_, ?_, ?_, hIds, ?_, ?_⟩
  · have hp := (matchBooks_prices b.bids b.asks).1
    have h1 := (@List.pairwise_map (Price × List Order) Price Prod.fst
      (fun p q => bidBefore p q = true) b.bids).2 h.sortedBids
    exact (@List.pairwise_map (Price × List Order) Price Prod.fst
      (fun p q => bidBefore p q = true) (matchBooks b.bids b.asks).bids).1
      (List.Pairwise.sublist hp.sublist h1)
  · have hp := (matchBooks_prices b.bids b.asks).2
    have h1 := (@List.pairwise_map (Price × List Order) Price Prod.fst
      (fun p q => askBefore p q = true) b.asks).2 h.sortedAsks
    exact (@List.pairwise_map (Price × List Order) Price Prod.fst
      (fun p q => askBefore p q = true) (matchBooks b.bids b.asks).asks).1
      (List.Pairwise.sublist hp.sublist h1)
  · exact (matchBooks_nonempty _ _ h.neBids h.neAsks).1
  · exact (matchBooks_nonempty _ _ h.neBids h.neAsks).2
  · exact (matchBooks_coherent _ _ Side.Buy Side.Sell h.cohBids h.cohAsks).1
  · exact (matchBooks_coherent _ _ Side.Buy Side.Sell h.cohBids h.cohAsks).2
  · exact h.nodupIdx.sublist ((eraseEntries_sublist _ _).map _)
  · rw [bookIds_eq]
    have hsub := List.Sublist.append
      (List.sublist_append_right cb (sideIds (matchBooks b.bids b.asks).bids))
      (List.sublist_append_right ca (sideIds (matchBooks b.bids b.asks).asks))
    exact hnodup2.sublist hsub
  · intro e he
    have he2 : e ∈ b.orders := mem_of_mem_eraseEntries _ _ _ he
    obtain ⟨o0, ho0, g1, g2, g3, g4⟩ := h.entryMatch e he2
    have hmm : e.orderId ∈ (Orderbook.mk (matchBooks b.bids b.asks).bids
        (matchBooks b.bids b.asks).asks
        (eraseEntries (matchBooks b.bids b.asks).removed b.orders)).bookIds := by
      rw [← hIds]
      exact List.mem_map_of_mem _ he
    obtain ⟨o2, ho2, hid2⟩ := List.mem_map.1 hmm
    have ho2b : o2 ∈ sideOrders (matchBooks b.bids b.asks).bids ++
        sideOrders (matchBooks b.bids b.asks).asks := ho2
    have hcore : ∃ y ∈ b.allOrders, SameCore o2 y := by
      rcases List.mem_append.1 ho2b with hcase | hcase
      · obtain ⟨y, hy, hc⟩ := (matchBooks_core b.bids b.asks).1 o2 hcase
        exact ⟨y, List.mem_append.2 (Or.inl hy), hc⟩
      · obtain ⟨y, hy, hc⟩ := (matchBooks_core b.bids b.asks).2 o2 hcase
        exact ⟨y, List.mem_append.2 (Or.inr hy), hc⟩
    obtain ⟨y, hyA, hc⟩ := hcore
    have hyo : y = o0 := by
      refine List.inj_on_of_nodup_map
        (show (b.allOrders.map Order.orderId).Nodup from h.nodupBook) hyA ho0 ?_
      rw [← hc.2.1, hid2, g1]
    subst hyo
    exact ⟨o2, ho2, hid2, hc.2.2.1.trans g2, hc.2.2.2.1.trans g3, hc.1.trans g4⟩
  · exact matchBooks_uncrossed b.bids b.asks

/-! ### AddOrder preserves the invariant -/

theorem bidBefore_iff (p q : Price) : bidBefore p q = true ↔ q < p := by
  simp [bidBefore]

theorem askBefore_iff (p q : Price) : askBefore p q = true ↔ p < q := by
  simp [askBefore]

theorem bidBefore_trans (a b c : Price) (h1 : bidBefore a b = true) (h2 : bidBefore b c = true) :
    bidBefore a c = true := by
  rw [bidBefore_iff] at h1 h2 ⊢
  exact lt_trans h2 h1

theorem bidBefore_total (a b : Price) (h : a ≠ b) :
    bidBefore a b = true ∨ bidBefore b a = true := by
  rw [bidBefore_iff, bidBefore_iff]
  exact Or.symm (lt_or_gt_of_ne h)

theorem askBefore_trans (a b c : Price) (h1 : askBefore a b = true) (h2 : askBefore b c = true) :
    askBefore a c = true := by
  rw [askBefore_iff] at h1 h2 ⊢
  exact lt_trans h1 h2

theorem askBefore_total (a b : Price) (h : a ≠ b) :
    askBefore a b = true ∨ askBefore b a = true := by
  rw [askBefore_iff, askBefore_iff]
  exact lt_or_gt_of_ne h

theorem WF.toPreWF {b : Orderbook} (h : WF b) : PreWF b :=
  ⟨h.sortedBids, h.sortedAsks, h.neBids, h.neAsks, h.cohBids, h.cohAsks,
   h.nodupIdx, h.nodupBook, h.idsMatch, h.entryMatch⟩

theorem sideIds_insertIntoSide_perm (before : Price → Price → Bool) (o : Order) (s : BookSide) :
    List.Perm (sideIds (insertIntoSide before o s)) (o.orderId :: sideIds s) :=
  (sideOrders_insertIntoSide_perm before o s).map Order.orderId

theorem prewf_insert_buy (b : Orderbook) (o : Order) (h : WF b)
    (hfresh : o.orderId ∉ b.idxIds) (hfreshB : o.orderId ∉ b.bookIds)
    (hside : o.side = Side.Buy) :
    PreWF (Orderbook.mk (insertIntoSide bidBefore o b.bids) b.asks
      (b.orders ++ [OrderEntry.mk o.orderId o.side o.price o.orderType])) := by
  have hperm := sideIds_insertIntoSide_perm bidBefore o b.bids
  have hpermO := sideOrders_insertIntoSide_perm bidBefore o b.bids
  refine ⟨?_, h.sortedAsks, ?_, h.neAsks, ?_, h.cohAsks, ?_, ?_, ?_, ?_⟩
  · exact insertIntoSide_sorted bidBefore bidBefore_trans bidBefore_total o b.bids h.sortedBids
  · exact insertIntoSide_nonempty bidBefore o b.bids h.neBids
  · exact insertIntoSide_coherent bidBefore o b.bids Side.Buy hside h.cohBids
  · show ((b.orders ++ [OrderEntry.mk o.orderId o.side o.price o.orderType]).map
      OrderEntry.orderId).Nodup
    rw [List.map_append, List.nodup_append]
    refine ⟨h.nodupIdx, by simp, ?_⟩
    intro i hi hi2
    simp only [List.map_cons, List.map_nil, List.mem_singleton] at hi2
    subst hi2
    exact hfresh hi
  · rw [bookIds_eq]
    have hp2 : List.Perm (sideIds (insertIntoSide bidBefore o b.bids) ++ sideIds b.asks)
        (o.orderId :: (sideIds b.bids ++ sideIds b.asks)) := by
      refine (hperm.append_right (sideIds b.asks)).trans ?_
      rw [List.cons_append]
    rw [hp2.nodup_iff, List.nodup_cons, ← bookIds_eq]
    exact ⟨hfreshB, h.nodupBook⟩
  · intro i
    have hIdx : i ∈ (Orderbook.mk (insertIntoSide bidBefore o b.bids) b.asks
        (b.orders ++ [OrderEntry.mk o.orderId o.side o.price o.orderType])).idxIds ↔
        i ∈ b.idxIds ∨ i = o.orderId := by
      show i ∈ (b.orders ++ [OrderEntry.mk o.orderId o.side o.price o.orderType]).map
        OrderEntry.orderId ↔ _
      rw [List.map_append, List.mem_append]
      simp [Orderbook.idxIds]
    have hBook : i ∈ (Orderbook.mk (insertIntoSide bidBefore o b.bids) b.asks
        (b.orders ++ [OrderEntry.mk o.orderId o.side o.price o.orderType])).bookIds ↔
        i = o.orderId ∨ i ∈ b.bookIds := by
      rw [bookIds_eq]
      show i ∈ sideIds (insertIntoSide bidBefore o b.bids) ++ sideIds b.asks ↔ _
      rw [List.mem_append, hperm.mem_iff, List.mem_cons, bookIds_eq, List.mem_append]
      tauto
    rw [hIdx, hBook, h.idsMatch i]
    tauto
  · intro e he
    rcases List.mem_append.1 he with he | he
    · obtain ⟨o0, ho0, g1, g2, g3, g4⟩ := h.entryMatch e he
      refine ⟨o0, ?_, g1, g2, g3, g4⟩
      show o0 ∈ sideOrders (insertIntoSide bidBefore o b.bids) ++ sideOrders b.asks
      rcases List.mem_append.1 ho0 with hm | hm
      · exact List.mem_append.2 (Or.inl (hpermO.mem_iff.2 (List.mem_cons_of_mem _ hm)))
      · exact List.mem_append.2 (Or.inr hm)
    · rcases List.mem_singleton.1 he with rfl
      refine ⟨o, ?_, rfl, rfl, rfl, rfl⟩
      show o ∈ sideOrders (insertIntoSide bidBefore o b.bids) ++ sideOrders b.asks
      exact List.mem_append.2 (Or.inl (hpermO.mem_iff.2 (List.mem_cons_self _ _)))

theorem prewf_insert_sell (b : Orderbook) (o : Order) (h : WF b)
    (hfresh : o.orderId ∉ b.idxIds) (hfreshB : o.orderId ∉ b.bookIds)
    (hside : o.side = Side.Sell) :
    PreWF (Orderbook.mk b.bids (insertIntoSide askBefore o b.asks)
      (b.orders ++ [OrderEntry.mk o.orderId o.side o.price o.orderType])) := by
  have hperm := sideIds_insertIntoSide_perm askBefore o b.asks
  have hpermO := sideOrders_insertIntoSide_perm askBefore o b.asks
  refine ⟨h.sortedBids, ?_, h.neBids, ?_, h.cohBids, ?_, ?_, ?_, ?_, ?_⟩
  · exact insertIntoSide_sorted askBefore askBefore_trans askBefore_total o b.asks h.sortedAsks
  · exact insertIntoSide_nonempty askBefore o b.asks h.neAsks
  · exact insertIntoSide_coherent askBefore o b.asks Side.Sell hside h.cohAsks
  · show ((b.orders ++ [OrderEntry.mk o.orderId o.side o.price o.orderType]).map
      OrderEntry.orderId).Nodup
    rw [List.map_append, List.nodup_append]
    refine ⟨h.nodupIdx, by simp, ?_⟩
    intro i hi hi2
    simp only [List.map_cons, List.map_nil, List.mem_singleton] at hi2
    subst hi2
    exact hfresh hi
  · rw [bookIds_eq]
    have hp2 : List.Perm (sideIds b.bids ++ sideIds (insertIntoSide askBefore o b.asks))
        (o.orderId :: (sideIds b.bids ++ sideIds b.asks)) := by
      refine (hperm.append_left (sideIds b.bids)).trans List.perm_middle
    rw [hp2.nodup_iff, List.nodup_cons, ← bookIds_eq]
    exact ⟨hfreshB, h.nodupBook⟩
  · intro i
    have hIdx : i ∈ (Orderbook.mk b.bids (insertIntoSide askBefore o b.asks)
        (b.orders ++ [OrderEntry.mk o.orderId o.side o.price o.orderType])).idxIds ↔
        i ∈ b.idxIds ∨ i = o.orderId := by
      show i ∈ (b.orders ++ [OrderEntry.mk o.orderId o.side o.price o.orderType]).map
        OrderEntry.orderId ↔ _
      rw [List.map_append, List.mem_append]
      simp [Orderbook.idxIds]
    have hBook : i ∈ (Orderbook.mk b.bids (insertIntoSide askBefore o b.asks)
        (b.orders ++ [OrderEntry.mk o.orderId o.side o.price o.orderType])).bookIds ↔
        i = o.orderId ∨ i ∈ b.bookIds := by
      rw [bookIds_eq]
      show i ∈ sideIds b.bids ++ sideIds (insertIntoSide askBefore o b.asks) ↔ _
      rw [List.mem_append, hperm.mem_iff, List.mem_cons, bookIds_eq, List.mem_append]
      tauto
    rw [hIdx, hBook, h.idsMatch i]
    tauto
  · intro e he
    rcases List.mem_append.1 he with he | he
    · obtain ⟨o0, ho0, g1, g2, g3, g4⟩ := h.entryMatch e he
      refine ⟨o0, ?_, g1, g2, g3, g4⟩
      show o0 ∈ sideOrders b.bids ++ sideOrders (insertIntoSide askBefore o b.asks)
      rcases List.mem_append.1 ho0 with hm | hm
      · exact List.mem_append.2 (Or.inl hm)
      · exact List.mem_append.2 (Or.inr (hpermO.mem_iff.2 (List.mem_cons_of_mem _ hm)))
    · rcases List.mem_singleton.1 he with rfl
      refine ⟨o, ?_, rfl, rfl, rfl, rfl⟩
      show o ∈ sideOrders b.bids ++ sideOrders (insertIntoSide askBefore o b.asks)
      exact List.mem_append.2 (Or.inr (hpermO.mem_iff.2 (List.mem_cons_self _ _)))

theorem wf_addOrder (b : Orderbook) (o : Order) (h : WF b) : WF (b.AddOrder o).1 := by
  rw [Orderbook.AddOrder]
  split
  · exact h
  · split
    · exact h
    · rename_i hdup hfak
      have hfresh : o.orderId ∉ b.idxIds := by
        intro hmem
        exact hdup ((lookupEntry_isSome _ _).2 hmem)
      have hfreshB : o.orderId ∉ b.bookIds := fun hm => hfresh ((h.idsMatch _).2 hm)
      cases hside : o.side with
      | Buy =>
        have hw := (prewf_insert_buy b o h hfresh hfreshB hside).matchOrders
        rw [hside] at hw
        exact hw
      | Sell =>
        have hw := (prewf_insert_sell b o h hfresh hfreshB hside).matchOrders
        rw [hside] at hw
        exact hw

/-! ### Lemmas about level removal (CancelOrder) -/

theorem removeFromLevel_fst_sublist (p : Price) (oid : OrderId) (s : BookSide) :
    List.Sublist ((removeFromLevel p oid s).map Prod.fst) (s.map Prod.fst) := by
  induction s with
  | nil => simp [removeFromLevel]
  | cons hd rest ih =>
    obtain ⟨q, os⟩ := hd
    rw [removeFromLevel]
    split
    · split
      · exact (List.sublist_cons_self q _).trans (by simp)
      · simp
    · simp only [List.map_cons]
      exact List.Sublist.cons₂ q ih

theorem removeFromLevel_nonempty (p : Price) (oid : OrderId) (s : BookSide)
    (hs : ∀ l ∈ s, l.2 ≠ []) : ∀ l ∈ removeFromLevel p oid s, l.2 ≠ [] := by
  induction s with
  | nil => simp [removeFromLevel]
  | cons hd rest ih =>
    obtain ⟨q, os⟩ := hd
    intro l hl
    rw [removeFromLevel] at hl
    split at hl
    · split at hl
      · exact hs l (List.mem_cons_of_mem _ hl)
      · rcases List.mem_cons.1 hl with rfl | h2
        · rename_i hne
          exact hne
        · exact hs l (List.mem_cons_of_mem _ h2)
    · rcases List.mem_cons.1 hl with rfl | h2
      · exact hs _ (List.mem_cons_self _ _)
      · exact ih (fun l2 hl2 => hs l2 (List.mem_cons_of_mem _ hl2)) l h2

theorem mem_removeFromLevel_level (p : Price) (oid : OrderId) (s : BookSide)
    (l : Price × List Order) (hl : l ∈ removeFromLevel p oid s) :
    ∃ os, (l.1, os) ∈ s ∧ List.Sublist l.2 os := by
  induction s with
  | nil => simp [removeFromLevel] at hl
  | cons hd rest ih =>
    obtain ⟨q, os⟩ := hd
    rw [removeFromLevel] at hl
    split at hl
    · split at hl
      · exact ⟨l.2, List.mem_cons_of_mem _ hl, List.Sublist.refl _⟩
      · rcases List.mem_cons.1 hl with rfl | h2
        · exact ⟨os, List.mem_cons_self _ _, eraseOrder_sublist oid os⟩
        · exact ⟨l.2, List.mem_cons_of_mem _ h2, List.Sublist.refl _⟩
    · rcases List.mem_cons.1 hl with rfl | h2
      · exact ⟨os, List.mem_cons_self _ _, List.Sublist.refl _⟩
      · obtain ⟨os2, h3, h4⟩ := ih h2
        exact ⟨os2, List.mem_cons_of_mem _ h3, h4⟩

theorem sideOrders_removeFromLevel_sub (p : Price) (oid : OrderId) (s : BookSide) (x : Order)
    (hx : x ∈ sideOrders (removeFromLevel p oid s)) : x ∈ sideOrders s := by
  rw [mem_sideOrders] at hx ⊢
  obtain ⟨l, hl, hxl⟩ := hx
  obtain ⟨os, h2, h3⟩ := mem_removeFromLevel_level p oid s l hl
  exact ⟨(l.1, os), h2, h3.mem hxl⟩

theorem sideOrders_removeFromLevel_keep (p : Price) (oid : OrderId) (s : BookSide) (x : Order)
    (hx : x ∈ sideOrders s) (hne : x.orderId ≠ oid) :
    x ∈ sideOrders (removeFromLevel p oid s) := by
  induction s with
  | nil => simp [sideOrders] at hx
  | cons hd rest ih =>
    obtain ⟨q, os⟩ := hd
    rw [sideOrders_cons, List.mem_append] at hx
    rw [removeFromLevel]
    split
    · split
      · rename_i hemp
        rcases hx with hx | hx
        · exact absurd (mem_eraseOrder_of_ne oid os x hx hne) (by rw [hemp]; simp)
        · exact hx
      · rw [sideOrders_cons, List.mem_append]
        rcases hx with hx | hx
        · exact Or.inl (mem_eraseOrder_of_ne oid os x hx hne)
        · exact Or.inr hx
    · rw [sideOrders_cons, List.mem_append]
      rcases hx with hx | hx
      · exact Or.inl hx
      · exact Or.inr (ih hx)

theorem sideIds_removeFromLevel_sublist (p : Price) (oid : OrderId) (s : BookSide) :
    List.Sublist (sideIds (removeFromLevel p oid s)) (sideIds s) := by
  induction s with
  | nil => simp [removeFromLevel]
  | cons hd rest ih =>
    obtain ⟨q, os⟩ := hd
    rw [removeFromLevel]
    split
    · split
      · rw [sideIds_cons]
        exact (List.sublist_append_right _ _)
      · rw [sideIds_cons, sideIds_cons]
        exact List.Sublist.append ((eraseOrder_sublist oid os).map _) (List.Sublist.refl _)
    · rw [sideIds_cons, sideIds_cons]
      exact List.Sublist.append (List.Sublist.refl _) ih

theorem removeFromLevel_of_not_mem (p : Price) (oid : OrderId) (s : BookSide)
    (h1 : oid ∉ sideIds s) (h2 : ∀ l ∈ s, l.2 ≠ []) : removeFromLevel p oid s = s := by
  induction s with
  | nil => rfl
  | cons hd rest ih =>
    obtain ⟨q, os⟩ := hd
    rw [sideIds_cons, List.mem_append, not_or] at h1
    rw [removeFromLevel]
    split
    · rw [eraseOrder_of_not_mem oid os h1.1]
      rw [if_neg (h2 (q, os) (List.mem_cons_self _ _))]
    · rw [ih h1.2 (fun l hl => h2 l (List.mem_cons_of_mem _ hl))]

theorem sideIds_of_level (s : BookSide) (l : Price × List Order) (hl : l ∈ s)
    (i : OrderId) (hi : i ∈ queueIds l.2) : i ∈ sideIds s := by
  rw [mem_sideIds]
  obtain ⟨x, hx, hxid⟩ := List.mem_map.1 hi
  exact ⟨x, (mem_sideOrders s x).2 ⟨l, hl, hx⟩, hxid⟩

theorem sideIds_removeFromLevel_mem (p : Price) (oid : OrderId) (s : BookSide)
    (hnd : (sideIds s).Nodup) (hpnd : (s.map Prod.fst).Nodup)
    (hloc : ∃ l ∈ s, l.1 = p ∧ oid ∈ queueIds l.2) (i : OrderId) :
    i ∈ sideIds (removeFromLevel p oid s) ↔ i ∈ sideIds s ∧ i ≠ oid := by
  induction s with
  | nil =>
    obtain ⟨l0, hl0, _, _⟩ := hloc
    simp at hl0
  | cons hd rest ih =>
    obtain ⟨q, os⟩ := hd
    obtain ⟨l0, hl0, hp0, hin0⟩ := hloc
    rw [sideIds_cons] at hnd
    obtain ⟨hnd1, hnd2, hdisj⟩ := List.nodup_append.1 hnd
    rw [List.map_cons, List.nodup_cons] at hpnd
    rw [removeFromLevel]
    split
    · rename_i hqp
      have hoin : oid ∈ queueIds os := by
        rcases List.mem_cons.1 hl0 with rfl | h2
        · exact hin0
        · exfalso
          apply hpnd.1
          show q ∈ List.map Prod.fst rest
          rw [hqp, ← hp0]
          exact List.mem_map_of_mem _ h2
      have hifs : sideIds (if eraseOrder oid os = [] then rest
          else (q, eraseOrder oid os) :: rest) =
          queueIds (eraseOrder oid os) ++ sideIds rest := by
        split
        · rename_i hemp
          rw [hemp]
          simp [queueIds]
        · rw [sideIds_cons]
      rw [hifs, List.mem_append, queueIds_eraseOrder_mem oid os hnd1 i, sideIds_cons,
        List.mem_append]
      have hrest : oid ∉ sideIds rest := fun hr => hdisj hoin hr
      constructor
      · rintro (⟨h3, h4⟩ | h3)
        · exact ⟨Or.inl h3, h4⟩
        · refine ⟨Or.inr h3, ?_⟩
          rintro rfl
          exact hrest h3
      · rintro ⟨h3 | h3, h4⟩
        · exact Or.inl ⟨h3, h4⟩
        · exact Or.inr h3
    · rename_i hqp
      have hl0r : l0 ∈ rest := by
        rcases List.mem_cons.1 hl0 with rfl | h2
        · exact absurd hp0 hqp
        · exact h2
      have hoidrest : oid ∈ sideIds rest := sideIds_of_level rest l0 hl0r oid hin0
      have hoidos : oid ∉ queueIds os := fun ho => hdisj ho hoidrest
      rw [sideIds_cons, sideIds_cons, List.mem_append, List.mem_append,
        ih hnd2 hpnd.2 ⟨l0, hl0r, hp0, hin0⟩]
      constructor
      · rintro (h3 | ⟨h3, h4⟩)
        · refine ⟨Or.inl h3, ?_⟩
          rintro rfl
          exact hoidos h3
        · exact ⟨Or.inr h3, h4⟩
      · rintro ⟨h3 | h3, h4⟩
        · exact Or.inl h3
        · exact Or.inr ⟨h3, h4⟩

/-! ### CancelOrder preserves the invariant -/

theorem sortedBids_fst_nodup (s : BookSide)
    (hs : s.Pairwise (fun x y => bidBefore x.1 y.1 = true)) : (s.map Prod.fst).Nodup := by
  have h2 : s.Pairwise (fun x y : Price × List Order => x.1 ≠ y.1) :=
    hs.imp (fun hxy => ne_of_gt ((bidBefore_iff _ _).1 hxy))
  exact (@List.pairwise_map (Price × List Order) Price Prod.fst (fun a b => a ≠ b) s).2 h2

theorem sortedAsks_fst_nodup (s : BookSide)
    (hs : s.Pairwise (fun x y => askBefore x.1 y.1 = true)) : (s.map Prod.fst).Nodup := by
  have h2 : s.Pairwise (fun x y : Price × List Order => x.1 ≠ y.1) :=
    hs.imp (fun hxy => ne_of_lt ((askBefore_iff _ _).1 hxy))
  exact (@List.pairwise_map (Price × List Order) Price Prod.fst (fun a b => a ≠ b) s).2 h2

theorem wf_locateEntry (b : Orderbook) (h : WF b) (e : OrderEntry) (he : e ∈ b.orders) :
    (e.side = Side.Buy →
      (∃ l ∈ b.bids, l.1 = e.price ∧ e.orderId ∈ queueIds l.2) ∧ e.orderId ∉ sideIds b.asks) ∧
    (e.side = Side.Sell →
      (∃ l ∈ b.asks, l.1 = e.price ∧ e.orderId ∈ queueIds l.2) ∧ e.orderId ∉ sideIds b.bids) := by
  obtain ⟨o0, ho0, g1, g2, g3, g4⟩ := h.entryMatch e he
  have ho0b : o0 ∈ sideOrders b.bids ++ sideOrders b.asks := ho0
  have hbnodup : (sideIds b.bids ++ sideIds b.asks).Nodup := by
    rw [← bookIds_eq]
    exact h.nodupBook
  obtain ⟨_, _, hdisj⟩ := List.nodup_append.1 hbnodup
  rcases List.mem_append.1 ho0b with hm | hm
  · obtain ⟨l, hl, hol⟩ := (mem_sideOrders b.bids o0).1 hm
    have hcoh := h.cohBids l hl o0 hol
    have hidin : e.orderId ∈ queueIds l.2 := by
      rw [← g1]
      exact List.mem_map_of_mem _ hol
    have hidbids : e.orderId ∈ sideIds b.bids := sideIds_of_level b.bids l hl _ hidin
    constructor
    · intro _
      refine ⟨⟨l, hl, ?_, hidin⟩, fun hmem => hdisj hidbids hmem⟩
      rw [← hcoh.2, g3]
    · intro hs
      rw [hs] at g2
      rw [hcoh.1] at g2
      exact absurd g2 (by simp)
  · obtain ⟨l, hl, hol⟩ := (mem_sideOrders b.asks o0).1 hm
    have hcoh := h.cohAsks l hl o0 hol
    have hidin : e.orderId ∈ queueIds l.2 := by
      rw [← g1]
      exact List.mem_map_of_mem _ hol
    have hidasks : e.orderId ∈ sideIds b.asks := sideIds_of_level b.asks l hl _ hidin
    constructor
    · intro hs
      rw [hs] at g2
      rw [hcoh.1] at g2
      exact absurd g2 (by simp)
    · intro _
      refine ⟨⟨l, hl, ?_, hidin⟩, ?_⟩
      · rw [← hcoh.2, g3]
      · intro hmem
        exact hdisj hmem hidasks

theorem uncrossed_shrink_bids (B B2 A : BookSide)
    (hsub : List.Sublist (B2.map Prod.fst) (B.map Prod.fst))
    (hsorted : B.Pairwise (fun x y => bidBefore x.1 y.1 = true))
    (hu : Uncrossed B A) : Uncrossed B2 A := by
  cases B2 with
  | nil => exact uncrossed_left A
  | cons l2 t2 =>
    cases A with
    | nil => exact uncrossed_right _
    | cons la ta =>
      obtain ⟨p2, os2⟩ := l2
      obtain ⟨pa, oa⟩ := la
      show p2 < pa
      have hp2 : p2 ∈ B.map Prod.fst := hsub.mem (by simp)
      cases B with
      | nil => simp at hp2
      | cons lb tb =>
        obtain ⟨pb, ob⟩ := lb
        have hub : pb < pa := hu
        rw [List.map_cons] at hp2
        rcases List.mem_cons.1 hp2 with rfl | hp3
        · exact hub
        · rw [List.pairwise_cons] at hsorted
          obtain ⟨l3, hl3, hl3e⟩ := List.mem_map.1 hp3
          have h4 := (bidBefore_iff _ _).1 (hsorted.1 l3 hl3)
          rw [hl3e] at h4
          exact lt_trans h4 hub

theorem uncrossed_shrink_asks (B A A2 : BookSide)
    (hsub : List.Sublist (A2.map Prod.fst) (A.map Prod.fst))
    (hsorted : A.Pairwise (fun x y => askBefore x.1 y.1 = true))
    (hu : Uncrossed B A) : Uncrossed B A2 := by
  cases A2 with
  | nil => exact uncrossed_right B
  | cons l2 t2 =>
    cases B with
    | nil => exact uncrossed_left _
    | cons lb tb =>
      obtain ⟨p2, os2⟩ := l2
      obtain ⟨pb, ob⟩ := lb
      show pb < p2
      have hp2 : p2 ∈ A.map Prod.fst := hsub.mem (by simp)
      cases A with
      | nil => simp at hp2
      | cons la ta =>
        obtain ⟨pa, oa⟩ := la
        have hub : pb < pa := hu
        rw [List.map_cons] at hp2
        rcases List.mem_cons.1 hp2 with rfl | hp3
        · exact hub
        · rw [List.pairwise_cons] at hsorted
          obtain ⟨l3, hl3, hl3e⟩ := List.mem_map.1 hp3
          have h4 := (askBefore_iff _ _).1 (hsorted.1 l3 hl3)
          rw [hl3e] at h4
          exact lt_trans hub h4

theorem wf_cancelOrder (b : Orderbook) (oid : OrderId) (h : WF b) : WF (b.CancelOrder oid) := by
  rw [Orderbook.CancelOrder]
  split
  · exact h
  · rename_i e heq
    obtain ⟨he, hid⟩ := lookupEntry_mem oid b.orders e heq
    have hbnodup : (sideIds b.bids ++ sideIds b.asks).Nodup := by
      rw [← bookIds_eq]
      exact h.nodupBook
    obtain ⟨hndB, hndA, hdisjBA⟩ := List.nodup_append.1 hbnodup
    have hloc := wf_locateEntry b h e he
    cases hside : e.side with
    | Buy =>
      obtain ⟨hlb, hnotasks⟩ := hloc.1 hside
      rw [hid] at hlb hnotasks
      show WF (Orderbook.mk (removeFromLevel e.price oid b.bids) b.asks
        (eraseEntry oid b.orders))
      refine ⟨?_, h.sortedAsks, ?_, h.neAsks, ?_, h.cohAsks, ?_, ?_, ?_, ?_, ?_⟩
      · have h1 := (@List.pairwise_map (Price × List Order) Price Prod.fst
          (fun p q => bidBefore p q = true) b.bids).2 h.sortedBids
        exact (@List.pairwise_map (Price × List Order) Price Prod.fst
          (fun p q => bidBefore p q = true) (removeFromLevel e.price oid b.bids)).1
          (List.Pairwise.sublist (removeFromLevel_fst_sublist _ _ _) h1)
      · exact removeFromLevel_nonempty _ _ _ h.neBids
      · intro l hl x hx
        obtain ⟨os, h2, h3⟩ := mem_removeFromLevel_level _ _ _ l hl
        exact h.cohBids (l.1, os) h2 x (h3.mem hx)
      · exact h.nodupIdx.sublist ((eraseEntry_sublist _ _).map _)
      · rw [bookIds_eq]
        exact hbnodup.sublist
          (List.Sublist.append (sideIds_removeFromLevel_sublist _ _ _) (List.Sublist.refl _))
      · intro i
        show i ∈ (eraseEntry oid b.orders).map OrderEntry.orderId ↔
          i ∈ (Orderbook.mk (removeFromLevel e.price oid b.bids) b.asks
            (eraseEntry oid b.orders)).bookIds
        rw [bookIds_eq]
        show _ ↔ i ∈ sideIds (removeFromLevel e.price oid b.bids) ++ sideIds b.asks
        rw [map_eraseEntry_mem oid b.orders h.nodupIdx i, List.mem_append,
          sideIds_removeFromLevel_mem e.price oid b.bids hndB
            (sortedBids_fst_nodup _ h.sortedBids) hlb i]
        have hIM : i ∈ List.map OrderEntry.orderId b.orders ↔
            i ∈ sideIds b.bids ++ sideIds b.asks := by
          rw [← bookIds_eq]
          exact h.idsMatch i
        rw [hIM, List.mem_append]
        have hna : i ∈ sideIds b.asks → i ≠ oid := by
          intro hx
          rintro rfl
          exact hnotasks hx
        constructor
        · rintro ⟨h3 | h3, h4⟩
          · exact Or.inl ⟨h3, h4⟩
          · exact Or.inr h3
        · rintro (⟨h3, h4⟩ | h3)
          · exact ⟨Or.inl h3, h4⟩
          · exact ⟨Or.inr h3, hna h3⟩
      · intro e2 he2
        have he2b : e2 ∈ b.orders := mem_of_mem_eraseEntry _ _ _ he2
        have hne2 : e2.orderId ≠ oid := eraseEntry_mem_ne oid b.orders h.nodupIdx e2 he2
        obtain ⟨o0, ho0, g1, g2, g3, g4⟩ := h.entryMatch e2 he2b
        refine ⟨o0, ?_, g1, g2, g3, g4⟩
        show o0 ∈ sideOrders (removeFromLevel e.price oid b.bids) ++ sideOrders b.asks
        have ho0b : o0 ∈ sideOrders b.bids ++ sideOrders b.asks := ho0
        rcases List.mem_append.1 ho0b with hm | hm
        · refine List.mem_append.2 (Or.inl
            (sideOrders_removeFromLevel_keep _ _ _ _ hm ?_))
          rw [g1]
          exact hne2
        · exact List.mem_append.2 (Or.inr hm)
      · exact uncrossed_shrink_bids b.bids _ b.asks (removeFromLevel_fst_sublist _ _ _)
          h.sortedBids h.uncrossed
    | Sell =>
      obtain ⟨hla, hnotbids⟩ := hloc.2 hside
      rw [hid] at hla hnotbids
      show WF (Orderbook.mk b.bids (removeFromLevel e.price oid b.asks)
        (eraseEntry oid b.orders))
      refine ⟨h.sortedBids, ?_, h.neBids, ?_, h.cohBids, ?_, ?_, ?_, ?_, ?_, ?_⟩
      · have h1 := (@List.pairwise_map (Price × List Order) Price Prod.fst
          (fun p q => askBefore p q = true) b.asks).2 h.sortedAsks
        exact (@List.pairwise_map (Price × List Order) Price Prod.fst
          (fun p q => askBefore p q = true) (removeFromLevel e.price oid b.asks)).1
          (List.Pairwise.sublist (removeFromLevel_fst_sublist _ _ _) h1)
      · exact removeFromLevel_nonempty _ _ _ h.neAsks
      · intro l hl x hx
        obtain ⟨os, h2, h3⟩ := mem_removeFromLevel_level _ _ _ l hl
        exact h.cohAsks (l.1, os) h2 x (h3.mem hx)
      · exact h.nodupIdx.sublist ((eraseEntry_sublist _ _).map _)
      · rw [bookIds_eq]
        exact hbnodup.sublist
          (List.Sublist.append (List.Sublist.refl _) (sideIds_removeFromLevel_sublist _ _ _))
      · intro i
        show i ∈ (eraseEntry oid b.orders).map OrderEntry.orderId ↔
          i ∈ (Orderbook.mk b.bids (removeFromLevel e.price oid b.asks)
            (eraseEntry oid b.orders)).bookIds
        rw [bookIds_eq]
        show _ ↔ i ∈ sideIds b.bids ++ sideIds (removeFromLevel e.price oid b.asks)
        rw [map_eraseEntry_mem oid b.orders h.nodupIdx i, List.mem_append,
          sideIds_removeFromLevel_mem e.price oid b.asks hndA
            (sortedAsks_fst_nodup _ h.sortedAsks) hla i]
        have hIM : i ∈ List.map OrderEntry.orderId b.orders ↔
            i ∈ sideIds b.bids ++ sideIds b.asks := by
          rw [← bookIds_eq]
          exact h.idsMatch i
        rw [hIM, List.mem_append]
        have hnb : i ∈ sideIds b.bids → i ≠ oid := by
          intro hx
          rintro rfl
          exact hnotbids hx
        constructor
        · rintro ⟨h3 | h3, h4⟩
          · exact Or.inl h3
          · exact Or.inr ⟨h3, h4⟩
        · rintro (h3 | ⟨h3, h4⟩)
          · exact ⟨Or.inl h3, hnb h3⟩
          · exact ⟨Or.inr h3, h4⟩
      · intro e2 he2
        have he2b : e2 ∈ b.orders := mem_of_mem_eraseEntry _ _ _ he2
        have hne2 : e2.orderId ≠ oid := eraseEntry_mem_ne oid b.orders h.nodupIdx e2 he2
        obtain ⟨o0, ho0, g1, g2, g3, g4⟩ := h.entryMatch e2 he2b
        refine ⟨o0, ?_, g1, g2, g3, g4⟩
        show o0 ∈ sideOrders b.bids ++ sideOrders (removeFromLevel e.price oid b.asks)
        have ho0b : o0 ∈ sideOrders b.bids ++ sideOrders b.asks := ho0
        rcases List.mem_append.1 ho0b with hm | hm
        · exact List.mem_append.2 (Or.inl hm)
        · refine List.mem_append.2 (Or.inr
            (sideOrders_removeFromLevel_keep _ _ _ _ hm ?_))
          rw [g1]
          exact hne2
      · exact uncrossed_shrink_asks b.bids b.asks _ (removeFromLevel_fst_sublist _ _ _)
          h.sortedAsks h.uncrossed

/-! ### Every reachable state satisfies the invariant -/

theorem wf_matchOrder (b : Orderbook) (m : OrderModify) (h : WF b) : WF (b.MatchOrder m).1 := by
  rw [Orderbook.MatchOrder]
  split
  · exact h
  · exact wf_addOrder _ _ (wf_cancelOrder _ _ h)

theorem wf_empty : WF emptyBook := by
  refine ⟨?_, ?_, ?_, ?_, ?_, ?_, ?_, ?_, ?_, ?_, ?_⟩ <;>
    simp [emptyBook, Orderbook.idxIds, Orderbook.bookIds, Orderbook.allOrders,
      sideOrders, sideIds, queueIds, Uncrossed]

theorem reachable_wf (b : Orderbook) (h : Reachable b) : WF b := by
  induction h with
  | empty => exact wf_empty
  | add b o hr ih => exact wf_addOrder b o ih
  | cancel b oid hr ih => exact wf_cancelOrder b oid ih
  | modify b m hr ih => exact wf_matchOrder b m ih

/-! ### The matching loop satisfies the spec's step recurrence -/

theorem putLevel_cons (p : Price) (x : Order) (xs : List Order) (rest : BookSide) :
    putLevel p (x :: xs) rest = (p, x :: xs) :: rest := by
  simp [putLevel]

theorem fillBy_rem (o : Order) (q : Quantity) :
    (fillBy o q).remainingQuantity = o.remainingQuantity - q := rfl

theorem askFilled_of_bidNot (bv av : Nat) (h : ¬ bv - min bv av = 0) : av - min bv av = 0 := by
  rcases Nat.le_total bv av with h2 | h2
  · exact absurd (by rw [Nat.min_eq_left h2]; exact Nat.sub_self bv) h
  · rw [Nat.min_eq_right h2]
    exact Nat.sub_self av

theorem matchBooks_resume (bp ap : Price) (bq aq : List Order) (bks aks : BookSide)
    (h : ¬ bp < ap) :
    matchBooks (putLevel bp bq bks) (putLevel ap aq aks) =
      ⟨(matchBooks (putLevel bp (matchLevel bq aq).bidQueue bks)
          (putLevel ap (matchLevel bq aq).askQueue aks)).bids,
       (matchBooks (putLevel bp (matchLevel bq aq).bidQueue bks)
          (putLevel ap (matchLevel bq aq).askQueue aks)).asks,
       (matchLevel bq aq).trades ++
         (matchBooks (putLevel bp (matchLevel bq aq).bidQueue bks)
            (putLevel ap (matchLevel bq aq).askQueue aks)).trades,
       (matchLevel bq aq).removed ++
         (matchBooks (putLevel bp (matchLevel bq aq).bidQueue bks)
            (putLevel ap (matchLevel bq aq).askQueue aks)).removed⟩ := by
  cases bq with
  | nil =>
    show matchBooks (putLevel bp [] bks) (putLevel ap aq aks) = _
    rw [show matchLevel [] aq = ⟨[], aq, [], []⟩ from by rw [matchLevel]]
    simp [putLevel]
  | cons bid bq =>
    cases aq with
    | nil =>
      show matchBooks (putLevel bp (bid :: bq) bks) (putLevel ap [] aks) = _
      rw [show matchLevel (bid :: bq) [] = ⟨bid :: bq, [], [], []⟩ from by rw [matchLevel]]
      simp [putLevel]
    | cons ask aq =>
      rw [putLevel_cons, putLevel_cons, matchBooks_go _ _ _ _ _ _ h]

theorem matchBooks_step (bp ap : Price) (bid ask : Order) (bq aq : List Order)
    (bks aks : BookSide) (h : ¬ bp < ap) :
    matchBooks ((bp, bid :: bq) :: bks) ((ap, ask :: aq) :: aks) =
      specMatchStep bp bid bq bks ap ask aq aks := by
  rw [matchBooks_go _ _ _ _ _ _ h, specMatchStep]
  by_cases hb : bid.remainingQuantity - min bid.remainingQuantity ask.remainingQuantity = 0
  · by_cases ha : ask.remainingQuantity - min bid.remainingQuantity ask.remainingQuantity = 0
    · have hml : matchLevel (bid :: bq) (ask :: aq) =
          ⟨(matchLevel bq aq).bidQueue, (matchLevel bq aq).askQueue,
           tradeOf bid ask :: (matchLevel bq aq).trades,
           bid.orderId :: ask.orderId :: (matchLevel bq aq).removed⟩ := by
        rw [matchLevel, if_pos hb, if_pos ha]
      rw [hml]
      dsimp only
      simp [hb, ha, tradeOf, matchBooks_resume bp ap bq aq bks aks h]
    · have hml : matchLevel (bid :: bq) (ask :: aq) =
          ⟨(matchLevel bq (fillBy ask (min bid.remainingQuantity ask.remainingQuantity) :: aq)).bidQueue,
           (matchLevel bq (fillBy ask (min bid.remainingQuantity ask.remainingQuantity) :: aq)).askQueue,
           tradeOf bid ask ::
             (matchLevel bq (fillBy ask (min bid.remainingQuantity ask.remainingQuantity) :: aq)).trades,
           bid.orderId ::
             (matchLevel bq (fillBy ask (min bid.remainingQuantity ask.remainingQuantity) :: aq)).removed⟩ := by
        rw [matchLevel, if_pos hb, if_neg ha]
      rw [hml]
      dsimp only
      have hres := matchBooks_resume bp ap bq
        (fillBy ask (min bid.remainingQuantity ask.remainingQuantity) :: aq) bks aks h
      rw [putLevel_cons] at hres
      simp [hb, ha, tradeOf, hres]
  · have ha2 : ask.remainingQuantity - min bid.remainingQuantity ask.remainingQuantity = 0 :=
      askFilled_of_bidNot _ _ hb
    have hml : matchLevel (bid :: bq) (ask :: aq) =
        ⟨(matchLevel (fillBy bid (min bid.remainingQuantity ask.remainingQuantity) :: bq) aq).bidQueue,
         (matchLevel (fillBy bid (min bid.remainingQuantity ask.remainingQuantity) :: bq) aq).askQueue,
         tradeOf bid ask ::
           (matchLevel (fillBy bid (min bid.remainingQuantity ask.remainingQuantity) :: bq) aq).trades,
         ask.orderId ::
           (matchLevel (fillBy bid (min bid.remainingQuantity ask.remainingQuantity) :: bq) aq).removed⟩ := by
      rw [matchLevel, if_neg hb]
    rw [hml]
    dsimp only
    have hres := matchBooks_resume bp ap
      (fillBy bid (min bid.remainingQuantity ask.remainingQuantity) :: bq) aq bks aks h
    rw [putLevel_cons] at hres
    simp [hb, ha2, tradeOf, hres]

/-! ### Remaining helper lemmas for the claim theorems -/

theorem matchLevel_len (bq aq : List Order) :
    (matchLevel bq aq).bidQueue.length ≤ bq.length ∧
    (matchLevel bq aq).askQueue.length ≤ aq.length := by
  induction bq, aq using matchLevel.induct <;> simp_all [matchLevel] <;> omega

theorem wf_all_lt (s : Orderbook) (hw : WF s) :
    ∀ lb ∈ s.bids, ∀ la ∈ s.asks, lb.1 < la.1 := by
  intro lb hlb la hla
  cases hbs : s.bids with
  | nil => rw [hbs] at hlb; simp at hlb
  | cons hb tb =>
    cases has : s.asks with
    | nil => rw [has] at hla; simp at hla
    | cons ha ta =>
      obtain ⟨pb, ob⟩ := hb
      obtain ⟨pa, oa⟩ := ha
      have hu : pb < pa := by
        have h2 := hw.uncrossed
        rw [hbs, has] at h2
        exact h2
      have hlbb : lb.1 ≤ pb := by
        rw [hbs] at hlb
        rcases List.mem_cons.1 hlb with rfl | h3
        · exact le_refl _
        · have h4 := hw.sortedBids
          rw [hbs, List.pairwise_cons] at h4
          exact le_of_lt ((bidBefore_iff _ _).1 (h4.1 lb h3))
      have hlaa : pa ≤ la.1 := by
        rw [has] at hla
        rcases List.mem_cons.1 hla with rfl | h3
        · exact le_refl _
        · have h4 := hw.sortedAsks
          rw [has, List.pairwise_cons] at h4
          exact le_of_lt ((askBefore_iff _ _).1 (h4.1 la h3))
      exact lt_of_le_of_lt hlbb (lt_of_lt_of_le hu hlaa)

theorem canMatch_buy_char (b : Orderbook) (hw : WF b) (p : Price) :
    b.CanMatch Side.Buy p = false ↔
      ∀ x ∈ b.allOrders, x.side = Side.Sell → p < x.price := by
  rw [Orderbook.CanMatch]
  cases has : b.asks with
  | nil =>
    simp only [eq_self_iff_true, true_iff]
    intro x hx hs
    exfalso
    have hx2 : x ∈ sideOrders b.bids ++ sideOrders b.asks := hx
    rcases List.mem_append.1 hx2 with hm | hm
    · obtain ⟨l, hl, hol⟩ := (mem_sideOrders _ _).1 hm
      have h2 := (hw.cohBids l hl x hol).1
      rw [h2] at hs
      exact absurd hs (by simp)
    · rw [has] at hm
      simp [sideOrders] at hm
  | cons ha ta =>
    obtain ⟨pa, oa⟩ := ha
    constructor
    · intro hcm x hx hs
      have h2 : p < pa := by
        have hcm2 : decide (pa ≤ p) = false := hcm
        rw [decide_eq_false_iff_not] at hcm2
        exact lt_of_not_le hcm2
      have hx2 : x ∈ sideOrders b.bids ++ sideOrders b.asks := hx
      rcases List.mem_append.1 hx2 with hm | hm
      · obtain ⟨l, hl, hol⟩ := (mem_sideOrders _ _).1 hm
        have h3 := (hw.cohBids l hl x hol).1
        rw [h3] at hs
        exact absurd hs (by simp)
      · obtain ⟨l, hl, hol⟩ := (mem_sideOrders _ _).1 hm
        have h3 := (hw.cohAsks l hl x hol).2
        rw [has] at hl
        rcases List.mem_cons.1 hl with rfl | h4
        · rw [h3]
          exact h2
        · have h5 := hw.sortedAsks
          rw [has, List.pairwise_cons] at h5
          have h6 := (askBefore_iff _ _).1 (h5.1 l h4)
          rw [h3]
          exact lt_trans h2 h6
    · intro hall
      have hne : oa ≠ [] := hw.neAsks (pa, oa) (by rw [has]; exact List.mem_cons_self _ _)
      obtain ⟨x, hx⟩ := List.exists_mem_of_ne_nil oa hne
      have hxall : x ∈ b.allOrders := by
        show x ∈ sideOrders b.bids ++ sideOrders b.asks
        refine List.mem_append.2 (Or.inr ((mem_sideOrders _ _).2 ⟨(pa, oa), ?_, hx⟩))
        rw [has]
        exact List.mem_cons_self _ _
      have hcoh := hw.cohAsks (pa, oa) (by rw [has]; exact List.mem_cons_self _ _) x hx
      have h2 := hall x hxall hcoh.1
      rw [hcoh.2] at h2
      show decide (pa ≤ p) = false
      rw [decide_eq_false_iff_not]
      exact not_le.2 h2

theorem canMatch_sell_char (b : Orderbook) (hw : WF b) (p : Price) :
    b.CanMatch Side.Sell p = false ↔
      ∀ x ∈ b.allOrders, x.side = Side.Buy → x.price < p := by
  rw [Orderbook.CanMatch]
  cases hbs : b.bids with
  | nil =>
    simp only [eq_self_iff_true, true_iff]
    intro x hx hs
    exfalso
    have hx2 : x ∈ sideOrders b.bids ++ sideOrders b.asks := hx
    rcases List.mem_append.1 hx2 with hm | hm
    · rw [hbs] at hm
      simp [sideOrders] at hm
    · obtain ⟨l, hl, hol⟩ := (mem_sideOrders _ _).1 hm
      have h2 := (hw.cohAsks l hl x hol).1
      rw [h2] at hs
      exact absurd hs (by simp)
  | cons hb tb =>
    obtain ⟨pb, ob⟩ := hb
    constructor
    · intro hcm x hx hs
      have h2 : pb < p := by
        have hcm2 : decide (p ≤ pb) = false := hcm
        rw [decide_eq_false_iff_not] at hcm2
        exact lt_of_not_le hcm2
      have hx2 : x ∈ sideOrders b.bids ++ sideOrders b.asks := hx
      rcases List.mem_append.1 hx2 with hm | hm
      · obtain ⟨l, hl, hol⟩ := (mem_sideOrders _ _).1 hm
        have h3 := (hw.cohBids l hl x hol).2
        rw [hbs] at hl
        rcases List.mem_cons.1 hl with rfl | h4
        · rw [h3]
          exact h2
        · have h5 := hw.sortedBids
          rw [hbs, List.pairwise_cons] at h5
          have h6 := (bidBefore_iff _ _).1 (h5.1 l h4)
          rw [h3]
          exact lt_trans h6 h2
      · obtain ⟨l, hl, hol⟩ := (mem_sideOrders _ _).1 hm
        have h3 := (hw.cohAsks l hl x hol).1
        rw [h3] at hs
        exact absurd hs (by simp)
    · intro hall
      have hne : ob ≠ [] := hw.neBids (pb, ob) (by rw [hbs]; exact List.mem_cons_self _ _)
      obtain ⟨x, hx⟩ := List.exists_mem_of_ne_nil ob hne
      have hxall : x ∈ b.allOrders := by
        show x ∈ sideOrders b.bids ++ sideOrders b.asks
        refine List.mem_append.2 (Or.inl ((mem_sideOrders _ _).2 ⟨(pb, ob), ?_, hx⟩))
        rw [hbs]
        exact List.mem_cons_self _ _
      have hcoh := hw.cohBids (pb, ob) (by rw [hbs]; exact List.mem_cons_self _ _) x hx
      have h2 := hall x hxall hcoh.1
      rw [hcoh.2] at h2
      show decide (p ≤ pb) = false
      rw [decide_eq_false_iff_not]
      exact not_le.2 h2

theorem cancelOrder_absent (b : Orderbook) (oid : OrderId)
    (h : lookupEntry oid b.orders = none) : b.CancelOrder oid = b := by
  rw [Orderbook.CancelOrder, h]

theorem removeIdFromSide_of_not_mem (oid : OrderId) (s : BookSide)
    (h : oid ∉ sideIds s) : removeIdFromSide oid s = s := by
  induction s with
  | nil => rfl
  | cons hd rest ih =>
    obtain ⟨q, os⟩ := hd
    rw [sideIds_cons, List.mem_append, not_or] at h
    rw [removeIdFromSide, if_neg h.1, ih h.2]

theorem removeFromLevel_eq_removeIdFromSide (p : Price) (oid : OrderId) (s : BookSide)
    (hnd : (sideIds s).Nodup) (hpnd : (s.map Prod.fst).Nodup)
    (hloc : ∃ l ∈ s, l.1 = p ∧ oid ∈ queueIds l.2) :
    removeFromLevel p oid s = removeIdFromSide oid s := by
  induction s with
  | nil => rfl
  | cons hd rest ih =>
    obtain ⟨q, os⟩ := hd
    obtain ⟨l0, hl0, hp0, hin0⟩ := hloc
    rw [sideIds_cons] at hnd
    obtain ⟨hnd1, hnd2, hdisj⟩ := List.nodup_append.1 hnd
    rw [List.map_cons, List.nodup_cons] at hpnd
    by_cases hqp : q = p
    · have hoin : oid ∈ queueIds os := by
        rcases List.mem_cons.1 hl0 with rfl | h2
        · exact hin0
        · exfalso
          apply hpnd.1
          show q ∈ List.map Prod.fst rest
          rw [hqp, ← hp0]
          exact List.mem_map_of_mem _ h2
      rw [removeFromLevel, removeIdFromSide, if_pos hqp, if_pos hoin]
    · have hl0r : l0 ∈ rest := by
        rcases List.mem_cons.1 hl0 with rfl | h2
        · exact absurd hp0 hqp
        · exact h2
      have hoidrest : oid ∈ sideIds rest := sideIds_of_level rest l0 hl0r oid hin0
      have hoidos : oid ∉ queueIds os := fun ho => hdisj ho hoidrest
      rw [removeFromLevel, removeIdFromSide, if_neg hqp, if_neg hoidos,
        ih hnd2 hpnd.2 ⟨l0, hl0r, hp0, hin0⟩]

theorem cancelOrder_eq_cancelSpec (b : Orderbook) (oid : OrderId) (hw : WF b) :
    b.CancelOrder oid = cancelSpec b oid := by
  have hbnodup : (sideIds b.bids ++ sideIds b.asks).Nodup := by
    rw [← bookIds_eq]
    exact hw.nodupBook
  obtain ⟨hndB, hndA, hdisjBA⟩ := List.nodup_append.1 hbnodup
  cases heq : lookupEntry oid b.orders with
  | none =>
    rw [cancelOrder_absent b oid heq, cancelSpec]
    have hno : oid ∉ b.idxIds := (lookupEntry_eq_none oid b.orders).1 heq
    have hnoB : oid ∉ b.bookIds := fun hm => hno ((hw.idsMatch _).2 hm)
    rw [bookIds_eq, List.mem_append, not_or] at hnoB
    rw [removeIdFromSide_of_not_mem oid b.bids hnoB.1,
      removeIdFromSide_of_not_mem oid b.asks hnoB.2,
      eraseEntry_of_not_mem oid b.orders hno]
  | some e =>
    obtain ⟨he, hid⟩ := lookupEntry_mem oid b.orders e heq
    have hloc := wf_locateEntry b hw e he
    rw [Orderbook.CancelOrder, heq]
    dsimp only
    cases hside : e.side with
    | Buy =>
      obtain ⟨hlb, hnotasks⟩ := hloc.1 hside
      rw [hid] at hlb hnotasks
      show Orderbook.mk (removeFromLevel e.price oid b.bids) b.asks
        (eraseEntry oid b.orders) = cancelSpec b oid
      rw [cancelSpec,
        removeFromLevel_eq_removeIdFromSide e.price oid b.bids hndB
          (sortedBids_fst_nodup _ hw.sortedBids) hlb,
        removeIdFromSide_of_not_mem oid b.asks hnotasks]
    | Sell =>
      obtain ⟨hla, hnotbids⟩ := hloc.2 hside
      rw [hid] at hla hnotbids
      show Orderbook.mk b.bids (removeFromLevel e.price oid b.asks)
        (eraseEntry oid b.orders) = cancelSpec b oid
      rw [cancelSpec,
        removeFromLevel_eq_removeIdFromSide e.price oid b.asks hndA
          (sortedAsks_fst_nodup _ hw.sortedAsks) hla,
        removeIdFromSide_of_not_mem oid b.bids hnotbids]

theorem cancelOrder_idem (b : Orderbook) (oid : OrderId) (hw : WF b) :
    (b.CancelOrder oid).CancelOrder oid = b.CancelOrder oid := by
  cases heq : lookupEntry oid b.orders with
  | none => rw [cancelOrder_absent b oid heq, cancelOrder_absent b oid heq]
  | some e =>
    have hor : (b.CancelOrder oid).orders = eraseEntry oid b.orders := by
      rw [Orderbook.CancelOrder, heq]
      dsimp only
      cases e.side <;> rfl
    apply cancelOrder_absent
    rw [hor]
    exact lookupEntry_eraseEntry_self oid b.orders hw.nodupIdx

theorem specLevelQuantity_cons (o : Order) (os : List Order) :
    specLevelQuantity (o :: os) = o.remainingQuantity + specLevelQuantity os := by
  simp [specLevelQuantity]

theorem foldl_qmod (os : List Order) (a : Nat) :
    os.foldl (fun sum o => (sum + o.remainingQuantity) % qmod) (a % qmod) =
      (a + specLevelQuantity os) % qmod := by
  induction os generalizing a with
  | nil => simp [specLevelQuantity]
  | cons o os ih =>
    rw [List.foldl_cons, Nat.mod_add_mod, ih (a + o.remainingQuantity),
      specLevelQuantity_cons, Nat.add_assoc]

theorem levelQuantity_eq (os : List Order) :
    levelQuantity os = specLevelQuantity os % qmod := by
  have h := foldl_qmod os 0
  rw [Nat.zero_mod, Nat.zero_add] at h
  exact h

/-! ### Claim theorems -/

/-- C1: the claim that a FillAndKill order never rests fails on the code.
After `AddOrder(GTC, 1, Sell, 100, 4)` then `AddOrder(FAK, 2, Buy, 100, 10)`
from the empty book, the FillAndKill order trades 4 and its unmatched
remainder of 6 rests in the bid book (and its id stays in the index):
`MatchOrders` never cancels a partially filled FillAndKill head.  The state is
reachable, and the resting order's classification is FillAndKill, refuting
"every order resting in the book after any AddOrder call is GoodTillCancel". -/
theorem fak_partial_fill_rests :
    exFakState.bids =
      [((100 : Price), [Order.mk OrderType.FillAndKill 2 Side.Buy 100 10 6])] ∧
    (2 : OrderId) ∈ exFakState.idxIds ∧
    Reachable exFakState := by
  refine ⟨?_, ?_, ?_⟩
  · simp [exFakState, exGtcSell, exFakBuy, emptyBook, Orderbook.AddOrder,
      Orderbook.MatchOrders, Orderbook.CanMatch, insertIntoSide, bidBefore, askBefore,
      lookupEntry, eraseEntries, eraseEntry, matchBooks, matchLevel, putLevel, tradeOf, fillBy]
  · simp [exFakState, exGtcSell, exFakBuy, emptyBook, Orderbook.AddOrder,
      Orderbook.MatchOrders, Orderbook.CanMatch, insertIntoSide, bidBefore, askBefore,
      lookupEntry, eraseEntries, eraseEntry, matchBooks, matchLevel, putLevel, tradeOf,
      fillBy, Orderbook.idxIds]
  · exact Reachable.add _ _ (Reachable.add _ _ Reachable.empty)

/-- C2: the matching phase repeatedly pairs the head orders of the best bid
and best ask levels while best bid price ≥ best ask price: when the best bid
price is below the best ask price the loop stops and changes nothing, and
otherwise one iteration trades `min` of the two head remainders, fills both
heads, records the buy side at the bid order's own price and the sell side at
the ask order's own price, pops each fully filled head (erasing its id, and
its level once the queue empties), and continues — head-first consumption at
each step is exactly earliest-arrival-first (FIFO) within a level. -/
theorem matching_algorithm_spec :
    (∀ (bp ap : Price) (bq aq : List Order) (bks aks : BookSide), bp < ap →
      matchBooks ((bp, bq) :: bks) ((ap, aq) :: aks) =
        ⟨(bp, bq) :: bks, (ap, aq) :: aks, [], []⟩) ∧
    (∀ (bp ap : Price) (bid ask : Order) (bq aq : List Order) (bks aks : BookSide),
      ¬ bp < ap →
      matchBooks ((bp, bid :: bq) :: bks) ((ap, ask :: aq) :: aks) =
        specMatchStep bp bid bq bks ap ask aq aks) :=
  ⟨fun bp ap bq aq bks aks h => matchBooks_stop bp bq bks ap aq aks h,
   fun bp ap bid ask bq aq bks aks h => matchBooks_step bp ap bid ask bq aq bks aks h⟩

theorem matching_algorithm_spec_witness :
    matchBooks [((100 : Price), [Order.mk OrderType.GoodTillCancel 7 Side.Buy 100 5 5])]
        [((90 : Price), [Order.mk OrderType.GoodTillCancel 8 Side.Sell 90 3 3])] =
      specMatchStep 100 (Order.mk OrderType.GoodTillCancel 7 Side.Buy 100 5 5) [] []
        90 (Order.mk OrderType.GoodTillCancel 8 Side.Sell 90 3 3) [] [] :=
  matching_algorithm_spec.2 100 90 _ _ [] [] [] [] (by decide)

/-- C8: `Order::Fill` fails (throws an overfill error, embedded as `none`)
exactly when the requested quantity exceeds the remaining quantity, leaving
the order unmodified; otherwise it decrements the remaining quantity by
exactly the requested amount, never clamping and changing no other field.
The third conjunct shows the fill requests issued by the matching loop
(`min` of two remainders) always satisfy the guard. -/
theorem fill_overfill :
    (∀ (o : Order) (q : Quantity), o.remainingQuantity < q → o.Fill q = none) ∧
    (∀ (o : Order) (q : Quantity), q ≤ o.remainingQuantity →
      o.Fill q = some (Order.mk o.orderType o.orderId o.side o.price o.initialQuantity
        (o.remainingQuantity - q))) ∧
    (∀ o x : Order, o.Fill (min o.remainingQuantity x.remainingQuantity) =
      some (Order.mk o.orderType o.orderId o.side o.price o.initialQuantity
        (o.remainingQuantity - min o.remainingQuantity x.remainingQuantity))) := by
  refine ⟨?_, ?_, ?_⟩
  · intro o q h
    rw [Order.Fill, if_pos h]
  · intro o q h
    rw [Order.Fill, if_neg (not_lt.2 h)]
  · intro o x
    rw [Order.Fill, if_neg (not_lt.2 (Nat.min_le_left _ _))]

theorem fill_overfill_witness :
    (Order.mk OrderType.GoodTillCancel 1 Side.Buy 100 10 4).Fill 5 = none ∧
    (Order.mk OrderType.GoodTillCancel 1 Side.Buy 100 10 4).Fill 3 =
      some (Order.mk OrderType.GoodTillCancel 1 Side.Buy 100 10 1) :=
  ⟨fill_overfill.1 _ 5 (by decide), fill_overfill.2.1 _ 3 (by decide)⟩

/-- C3: after any AddOrder call on a reachable book, the book is never left
crossed: every resting bid level's price is strictly below every resting ask
level's price (so in particular the best bid is below the best ask, and the
condition holds vacuously when a side is empty). -/
theorem addOrder_not_crossed (b : Orderbook) (o : Order) (h : Reachable b) :
    ∀ lb ∈ (b.AddOrder o).1.bids, ∀ la ∈ (b.AddOrder o).1.asks, lb.1 < la.1 :=
  wf_all_lt _ (reachable_wf _ (Reachable.add b o h))

theorem addOrder_not_crossed_witness : (90 : Price) < (100 : Price) :=
  addOrder_not_crossed
    (emptyBook.AddOrder (Order.mk OrderType.GoodTillCancel 1 Side.Buy 90 5 5)).1
    (Order.mk OrderType.GoodTillCancel 2 Side.Sell 100 5 5)
    (Reachable.add _ _ Reachable.empty)
    ((90 : Price), [Order.mk OrderType.GoodTillCancel 1 Side.Buy 90 5 5])
    (by simp [emptyBook, Orderbook.AddOrder, Orderbook.MatchOrders, Orderbook.CanMatch,
      insertIntoSide, bidBefore, askBefore, lookupEntry, eraseEntries, eraseEntry,
      matchBooks, matchLevel, putLevel, tradeOf, fillBy])
    ((100 : Price), [Order.mk OrderType.GoodTillCancel 2 Side.Sell 100 5 5])
    (by simp [emptyBook, Orderbook.AddOrder, Orderbook.MatchOrders, Orderbook.CanMatch,
      insertIntoSide, bidBefore, askBefore, lookupEntry, eraseEntries, eraseEntry,
      matchBooks, matchLevel, putLevel, tradeOf, fillBy])

/-- C4: in every reachable state, an order id is in the index exactly when it
occurs exactly once among the book's price-level queues; every price level
present on either side has a non-empty queue (levels are erased as soon as
they empty); and `Size()` is the number of entries in the index. -/
theorem book_index_consistency (b : Orderbook) (h : Reachable b) :
    (∀ i : OrderId, i ∈ b.idxIds ↔ b.bookIds.count i = 1) ∧
    (∀ l ∈ b.bids, l.2 ≠ []) ∧ (∀ l ∈ b.asks, l.2 ≠ []) ∧
    b.Size = b.idxIds.length := by
  have hw := reachable_wf b h
  refine ⟨?_, hw.neBids, hw.neAsks, ?_⟩
  · intro i
    rw [hw.idsMatch i]
    constructor
    · intro hm
      have h1 := List.nodup_iff_count_le_one.1 hw.nodupBook i
      have h2 := List.count_pos_iff.2 hm
      omega
    · intro hc
      refine List.count_pos_iff.1 ?_
      omega
  · simp [Orderbook.Size, Orderbook.idxIds]

theorem book_index_consistency_witness :
    (1 : OrderId) ∈ exOneBidState.idxIds ↔ exOneBidState.bookIds.count 1 = 1 :=
  (book_index_consistency exOneBidState (Reachable.add _ _ Reachable.empty)).1 1

/-- C5: the modify operation `MatchOrder` returns no trades and changes
nothing when the target id is unknown; otherwise it behaves exactly as
CancelOrder on the target id followed by AddOrder of a fresh, fully unfilled
order carrying the request's id, side, price and quantity together with the
time-in-force classification recorded for the order being replaced (third
conjunct: on reachable books that recorded classification is the resting
order's own classification). -/
theorem matchOrder_is_cancel_then_add :
    (∀ (b : Orderbook) (m : OrderModify), lookupEntry m.orderId b.orders = none →
      b.MatchOrder m = (b, [])) ∧
    (∀ (b : Orderbook) (m : OrderModify) (e : OrderEntry),
      lookupEntry m.orderId b.orders = some e →
      b.MatchOrder m = (b.CancelOrder m.orderId).AddOrder
        (Order.mk e.orderType m.orderId m.side m.price m.quantity m.quantity)) ∧
    (∀ (b : Orderbook) (m : OrderModify) (o : Order), Reachable b →
      o ∈ b.allOrders → o.orderId = m.orderId →
      b.MatchOrder m = (b.CancelOrder m.orderId).AddOrder
        (Order.mk o.orderType m.orderId m.side m.price m.quantity m.quantity)) := by
  have h1 : ∀ (b : Orderbook) (m : OrderModify), lookupEntry m.orderId b.orders = none →
      b.MatchOrder m = (b, []) := by
    intro b m h
    rw [Orderbook.MatchOrder, h]
  have h2 : ∀ (b : Orderbook) (m : OrderModify) (e : OrderEntry),
      lookupEntry m.orderId b.orders = some e →
      b.MatchOrder m = (b.CancelOrder m.orderId).AddOrder
        (Order.mk e.orderType m.orderId m.side m.price m.quantity m.quantity) := by
    intro b m e h
    rw [Orderbook.MatchOrder, h]
    rfl
  refine ⟨h1, h2, ?_⟩
  intro b m o hr ho hid
  have hw := reachable_wf b hr
  have hbid : m.orderId ∈ b.bookIds := by
    rw [← hid]
    exact List.mem_map_of_mem _ ho
  have hidx : m.orderId ∈ b.idxIds := (hw.idsMatch _).2 hbid
  have hsome : (lookupEntry m.orderId b.orders).isSome = true :=
    (lookupEntry_isSome _ _).2 hidx
  obtain ⟨e, heq⟩ := Option.isSome_iff_exists.1 hsome
  obtain ⟨he, hide⟩ := lookupEntry_mem _ _ _ heq
  obtain ⟨o0, ho0, g1, g2, g3, g4⟩ := hw.entryMatch e he
  have ho0o : o0 = o := by
    refine List.inj_on_of_nodup_map
      (show (b.allOrders.map Order.orderId).Nodup from hw.nodupBook) ho0 ho ?_
    rw [g1, hide, ← hid]
  have htype : e.orderType = o.orderType := by
    rw [← g4, ho0o]
  rw [h2 b m e heq, htype]

theorem matchOrder_is_cancel_then_add_witness :
    exOneBidState.MatchOrder (OrderModify.mk 1 Side.Sell 90 5) =
      (exOneBidState.CancelOrder 1).AddOrder
        (Order.mk OrderType.GoodTillCancel 1 Side.Sell 90 5 5) :=
  matchOrder_is_cancel_then_add.2.1 exOneBidState (OrderModify.mk 1 Side.Sell 90 5)
    (OrderEntry.mk 1 Side.Buy 100 OrderType.GoodTillCancel)
    (by simp [exOneBidState, exGtcBuy, emptyBook, Orderbook.AddOrder, Orderbook.MatchOrders,
      Orderbook.CanMatch, insertIntoSide, bidBefore, askBefore, lookupEntry, eraseEntries,
      eraseEntry, matchBooks, matchLevel, putLevel, tradeOf, fillBy])

/-- C6: AddOrder is a silent no-op, returning no trades and leaving the bid
book, ask book and index untouched, when the submitted id is already indexed
and when a FillAndKill order cannot immediately cross (so the FillAndKill
order's id never enters the index); on reachable books `CanMatch` being false
is exactly the claim's "no opposing order priced such that buy price ≥ best
ask / sell price ≤ best bid". -/
theorem addOrder_rejections :
    (∀ (b : Orderbook) (o : Order), o.orderId ∈ b.idxIds → b.AddOrder o = (b, [])) ∧
    (∀ (b : Orderbook) (o : Order), o.orderType = OrderType.FillAndKill →
      b.CanMatch o.side o.price = false →
      b.AddOrder o = (b, []) ∧ (b.AddOrder o).1.idxIds = b.idxIds) ∧
    (∀ b : Orderbook, Reachable b → ∀ p : Price,
      (b.CanMatch Side.Buy p = false ↔ ∀ x ∈ b.allOrders, x.side = Side.Sell → p < x.price) ∧
      (b.CanMatch Side.Sell p = false ↔ ∀ x ∈ b.allOrders, x.side = Side.Buy → x.price < p)) := by
  refine ⟨?_, ?_, ?_⟩
  · intro b o hmem
    rw [Orderbook.AddOrder, if_pos ((lookupEntry_isSome _ _).2 hmem)]
  · intro b o htype hcm
    have heq : b.AddOrder o = (b, []) := by
      rw [Orderbook.AddOrder]
      by_cases hdup : (lookupEntry o.orderId b.orders).isSome = true
      · rw [if_pos hdup]
      · rw [if_neg hdup, if_pos ⟨htype, hcm⟩]
    exact ⟨heq, by rw [heq]⟩
  · intro b hr p
    exact ⟨canMatch_buy_char b (reachable_wf b hr) p,
      canMatch_sell_char b (reachable_wf b hr) p⟩

theorem addOrder_rejections_witness :
    emptyBook.AddOrder (Order.mk OrderType.FillAndKill 3 Side.Buy 50 5 5) = (emptyBook, []) ∧
    (emptyBook.AddOrder (Order.mk OrderType.FillAndKill 3 Side.Buy 50 5 5)).1.idxIds =
      emptyBook.idxIds :=
  addOrder_rejections.2.1 emptyBook (Order.mk OrderType.FillAndKill 3 Side.Buy 50 5 5)
    (by rfl) (by rfl)

/-- C7: CancelOrder of an unknown id changes nothing; on a reachable book it
has exactly the effect described by the spec — remove precisely the order
with that id from the unique queue holding it, drop the level if the queue
empties, erase the id from the index, leave every other order, level and
entry unchanged (`cancelSpec`) — and cancelling the same id twice is a no-op
the second time. -/
theorem cancelOrder_spec_correct :
    (∀ (b : Orderbook) (oid : OrderId), lookupEntry oid b.orders = none →
      b.CancelOrder oid = b) ∧
    (∀ (b : Orderbook) (oid : OrderId), Reachable b →
      b.CancelOrder oid = cancelSpec b oid) ∧
    (∀ (b : Orderbook) (oid : OrderId), Reachable b →
      (b.CancelOrder oid).CancelOrder oid = b.CancelOrder oid) :=
  ⟨cancelOrder_absent,
   fun b oid hr => cancelOrder_eq_cancelSpec b oid (reachable_wf b hr),
   fun b oid hr => cancelOrder_idem b oid (reachable_wf b hr)⟩

theorem cancelOrder_spec_correct_witness :
    exOneBidState.CancelOrder 1 = cancelSpec exOneBidState 1 :=
  cancelOrder_spec_correct.2.1 exOneBidState 1 (Reachable.add _ _ Reachable.empty)

theorem getOrderInfos_prices_bids (b : Orderbook) :
    (b.GetOrderInfos).bids.map LevelInfo.price = b.bids.map Prod.fst := by
  show (b.bids.map fun l => CreateLevelInfo l.1 l.2).map LevelInfo.price = _
  rw [List.map_map]
  rfl

theorem getOrderInfos_prices_asks (b : Orderbook) :
    (b.GetOrderInfos).asks.map LevelInfo.price = b.asks.map Prod.fst := by
  show (b.asks.map fun l => CreateLevelInfo l.1 l.2).map LevelInfo.price = _
  rw [List.map_map]
  rfl

/-- C9 (amended): `GetOrderInfos` is a pure projection of the book that
returns, for each side, one (price, total) pair per occupied price level,
where the total is the sum of the remaining quantities of the orders at the
level reduced modulo `2^32` (the `uint32_t` accumulator wraps; the total
equals the exact sum whenever that sum is below `2^32`), with bid levels in
strictly descending price order and ask levels in strictly ascending price
order. -/
theorem getOrderInfos_spec (b : Orderbook) (h : Reachable b) :
    (b.GetOrderInfos).bids =
      b.bids.map (fun l => LevelInfo.mk l.1 (specLevelQuantity l.2 % qmod)) ∧
    (b.GetOrderInfos).asks =
      b.asks.map (fun l => LevelInfo.mk l.1 (specLevelQuantity l.2 % qmod)) ∧
    ((b.GetOrderInfos).bids.map LevelInfo.price).Pairwise (fun x y => y < x) ∧
    ((b.GetOrderInfos).asks.map LevelInfo.price).Pairwise (fun x y => x < y) := by
  have hw := reachable_wf b h
  have hfun : (fun l : Price × List Order => CreateLevelInfo l.1 l.2) =
      fun l : Price × List Order => LevelInfo.mk l.1 (specLevelQuantity l.2 % qmod) := by
    funext l
    rw [CreateLevelInfo, levelQuantity_eq]
  refine ⟨?_, ?_, ?_, ?_⟩
  · show b.bids.map (fun l => CreateLevelInfo l.1 l.2) = _
    rw [hfun]
  · show b.asks.map (fun l => CreateLevelInfo l.1 l.2) = _
    rw [hfun]
  · rw [getOrderInfos_prices_bids]
    exact (@List.pairwise_map (Price × List Order) Price Prod.fst
      (fun x y => y < x) b.bids).2 (hw.sortedBids.imp (fun hxy => (bidBefore_iff _ _).1 hxy))
  · rw [getOrderInfos_prices_asks]
    exact (@List.pairwise_map (Price × List Order) Price Prod.fst
      (fun x y => x < y) b.asks).2 (hw.sortedAsks.imp (fun hxy => (askBefore_iff _ _).1 hxy))

theorem getOrderInfos_spec_witness :
    (exOneBidState.GetOrderInfos).bids =
      exOneBidState.bids.map (fun l => LevelInfo.mk l.1 (specLevelQuantity l.2 % qmod)) :=
  (getOrderInfos_spec exOneBidState (Reachable.add _ _ Reachable.empty)).1

/-- C9 counterexample: the claim as stated — the reported total is *the* sum
of the remaining quantities at the level — fails on the code.  In the
reachable book holding two resting bids of quantity `4294967295` (`uint32`
max) at price 100, the exact sum is `8589934590`, but the `uint32_t`
accumulator of `GetOrderInfos` wraps and reports `4294967294`. -/
theorem getOrderInfos_exact_sum_false :
    (exBigState.GetOrderInfos).bids ≠
      exBigState.bids.map (fun l => LevelInfo.mk l.1 (specLevelQuantity l.2)) ∧
    Reachable exBigState := by
  constructor
  · have h1 : exBigState.bids =
        [((100 : Price), [exBigBuy1, exBigBuy2])] := by
      simp [exBigState, exBigBuy1, exBigBuy2, emptyBook, Orderbook.AddOrder,
        Orderbook.MatchOrders, Orderbook.CanMatch, insertIntoSide, bidBefore, askBefore,
        lookupEntry, eraseEntries, eraseEntry, matchBooks, matchLevel, putLevel,
        tradeOf, fillBy]
    show (exBigState.bids.map fun l => CreateLevelInfo l.1 l.2) ≠ _
    rw [h1]
    simp only [List.map_cons, List.map_nil, CreateLevelInfo, levelQuantity,
      specLevelQuantity, exBigBuy1, exBigBuy2]
    decide
  · exact Reachable.add _ _ (Reachable.add _ _ Reachable.empty)

/-- C10: the matching loop terminates.  One full pass of the inner loop over
two non-empty best-level queues strictly decreases the total number of queued
orders (each iteration pops at least one fully filled head), the inner loop
always ends with at least one of the two queues empty, and each iteration of
the outer loop on crossed best levels strictly decreases the total number of
price levels (the emptied queue's level is erased).  Together with these
measures, `matchLevel`, `matchBooks` and hence `AddOrder`, `CancelOrder`,
`MatchOrder`, `Size` and `GetOrderInfos` are total functions of the book
state (they are well-founded definitions in this development). -/
theorem matching_terminates :
    (∀ (bid ask : Order) (bq aq : List Order),
      (matchLevel (bid :: bq) (ask :: aq)).bidQueue.length +
        (matchLevel (bid :: bq) (ask :: aq)).askQueue.length <
      (bid :: bq).length + (ask :: aq).length) ∧
    (∀ bq aq : List Order,
      (matchLevel bq aq).bidQueue = [] ∨ (matchLevel bq aq).askQueue = []) ∧
    (∀ (bp ap : Price) (bq aq : List Order) (bks aks : BookSide), ¬ bp < ap →
      (matchBooks ((bp, bq) :: bks) ((ap, aq) :: aks)).bids.length +
        (matchBooks ((bp, bq) :: bks) ((ap, aq) :: aks)).asks.length <
      ((bp, bq) :: bks).length + ((ap, aq) :: aks).length) := by
  refine ⟨?_, matchLevel_queue_empty, ?_⟩
  · intro bid ask bq aq
    by_cases hb : bid.remainingQuantity - min bid.remainingQuantity ask.remainingQuantity = 0
    · by_cases ha : ask.remainingQuantity - min bid.remainingQuantity ask.remainingQuantity = 0
      · have h1 := matchLevel_len bq aq
        have h2 : matchLevel (bid :: bq) (ask :: aq) =
            ⟨(matchLevel bq aq).bidQueue, (matchLevel bq aq).askQueue,
             tradeOf bid ask :: (matchLevel bq aq).trades,
             bid.orderId :: ask.orderId :: (matchLevel bq aq).removed⟩ := by
          rw [matchLevel, if_pos hb, if_pos ha]
        rw [h2]
        simp only [List.length_cons]
        omega
      · have h1 := matchLevel_len bq
          (fillBy ask (min bid.remainingQuantity ask.remainingQuantity) :: aq)
        have h2 : matchLevel (bid :: bq) (ask :: aq) =
            ⟨(matchLevel bq (fillBy ask (min bid.remainingQuantity ask.remainingQuantity) :: aq)).bidQueue,
             (matchLevel bq (fillBy ask (min bid.remainingQuantity ask.remainingQuantity) :: aq)).askQueue,
             tradeOf bid ask ::
               (matchLevel bq (fillBy ask (min bid.remainingQuantity ask.remainingQuantity) :: aq)).trades,
             bid.orderId ::
               (matchLevel bq (fillBy ask (min bid.remainingQuantity ask.remainingQuantity) :: aq)).removed⟩ := by
          rw [matchLevel, if_pos hb, if_neg ha]
        rw [h2]
        simp only [List.length_cons] at h1 ⊢
        omega
    · have h1 := matchLevel_len
        (fillBy bid (min bid.remainingQuantity ask.remainingQuantity) :: bq) aq
      have h2 : matchLevel (bid :: bq) (ask :: aq) =
          ⟨(matchLevel (fillBy bid (min bid.remainingQuantity ask.remainingQuantity) :: bq) aq).bidQueue,
           (matchLevel (fillBy bid (min bid.remainingQuantity ask.remainingQuantity) :: bq) aq).askQueue,
           tradeOf bid ask ::
             (matchLevel (fillBy bid (min bid.remainingQuantity ask.remainingQuantity) :: bq) aq).trades,
           ask.orderId ::
             (matchLevel (fillBy bid (min bid.remainingQuantity ask.remainingQuantity) :: bq) aq).removed⟩ := by
        rw [matchLevel, if_neg hb]
      rw [h2]
      simp only [List.length_cons] at h1 ⊢
      omega
  · intro bp ap bq aq bks aks h
    rw [matchBooks_go _ _ _ _ _ _ h]
    have h1 := matchBooks_len (putLevel bp (matchLevel bq aq).bidQueue bks)
      (putLevel ap (matchLevel bq aq).askQueue aks)
    have h2 : (putLevel bp (matchLevel bq aq).bidQueue bks).length ≤ bks.length + 1 := by
      rw [putLevel]
      split <;> simp
    have h3 : (putLevel ap (matchLevel bq aq).askQueue aks).length ≤ aks.length + 1 := by
      rw [putLevel]
      split <;> simp
    rcases matchLevel_queue_empty bq aq with h4 | h4
    · have h5 : putLevel bp (matchLevel bq aq).bidQueue bks = bks := by
        rw [h4]
        simp [putLevel]
      rw [h5] at h1
      rw [h5]
      simp only [List.length_cons]
      omega
    · have h5 : putLevel ap (matchLevel bq aq).askQueue aks = aks := by
        rw [h4]
        simp [putLevel]
      rw [h5] at h1
      rw [h5]
      simp only [List.length_cons]
      omega

theorem matching_terminates_witness :
    (matchBooks [((100 : Price), [Order.mk OrderType.GoodTillCancel 7 Side.Buy 100 5 5])]
        [((100 : Price), [Order.mk OrderType.GoodTillCancel 8 Side.Sell 100 3 3])]).bids.length +
      (matchBooks [((100 : Price), [Order.mk OrderType.GoodTillCancel 7 Side.Buy 100 5 5])]
        [((100 : Price), [Order.mk OrderType.GoodTillCancel 8 Side.Sell 100 3 3])]).asks.length < 2 :=
  matching_terminates.2.2 100 100
    [Order.mk OrderType.GoodTillCancel 7 Side.Buy 100 5 5]
    [Order.mk OrderType.GoodTillCancel 8 Side.Sell 100 3 3] [] [] (by decide)
